import Mathlib

/-!
Verification of the dependency-closure core of changesgen
(src/expand_indirect.py): the worklist engine expand_proj_deps, the
two-tier binary-to-source resolver around the BIN2PKG cache, the
repository mirror RepoMirror, and the header-indexing loop of
mirror_repository, shallowly embedded as executable Lean definitions.
-/

set_option linter.unusedVariables false

/-! ## Data model -/

/-- A (project, repository, package) triple, the unit of the closure's
visited and work sets (expand_proj_deps, lines 223-295). -/
abbrev PkgTarget := String × String × String

/-- A (project, binary-name) key of the BIN2PKG cache (line 28). -/
abbrev BinKey := String × String

/-- One bdep element of a _buildenv document (lines 245-293): its
project, repository and name attributes. -/
structure Bdep where
  project : String
  repository : String
  name : String
deriving DecidableEq, Repr

/-- The fields of a mirrored RPM header that mirror_repository reads
(lines 208-215): the RPMTAG_NAME of the binary, and the source project
and source package derived from parsing RPMTAG_DISTURL. -/
structure RpmHdr where
  name : String
  srcProject : String
  srcPackage : String
deriving DecidableEq, Repr

/-- A file of the local mirror directory of a (project, repository), as
iterated by mirror_repository (line 187): its filename and the outcome of
the RPM header read. hdr is none when rpm raises or returns a non-header
value (lines 196-202). -/
structure MirFile where
  fname : String
  hdr : Option RpmHdr
deriving DecidableEq, Repr

/-- The remote build-service state as expand_indirect.py observes it:
buildenv p r arch k is the bdep list of the _buildenv document (line 238);
builddepinfo p r arch is the _builddepinfo subpackage map of
get_project_dependencies flattened to (subpackage, package-name) pairs in
document order (lines 156-173); mirrorFiles p r arch is the mirrored
header-file list that mirror_repository iterates after calling
RepoMirror.mirror with that architecture (lines 176-218). -/
structure Env where
  buildenv : String → String → String → String → List Bdep
  builddepinfo : String → String → String → List (String × String)
  mirrorFiles : String → String → String → List MirFile

/-- The BIN2PKG dict (line 28) as an association list; the most recent
binding of a key shadows older ones, exactly the observable behaviour of
Python dict assignment under .get lookups. -/
abbrev Bin2Pkg := List (BinKey × String)

/-- BIN2PKG[k] = v. -/
def b2pInsert (m : Bin2Pkg) (k : BinKey) (v : String) : Bin2Pkg := (k, v) :: m

/-- BIN2PKG.get(k) (line 252). -/
def b2pLookup (m : Bin2Pkg) (k : BinKey) : Option String :=
  (m.find? (fun p => p.1 == k)).map (fun p => p.2)

/-- Process-global mutable state: the BIN2PKG dict (line 28) and the
functools.cache key sets of get_project_dependencies (line 156) and
mirror_repository (line 176). functools.cache records a key only when the
call returns without raising. -/
structure Global where
  bin2pkg : Bin2Pkg
  gpdDone : List (String × String × String)
  mirrorDone : List (String × String)
deriving DecidableEq, Repr

/-- The globals at interpreter start. -/
def Global.empty : Global := ⟨[], [], []⟩

/-! ## mirror_repository header indexing (lines 185-218) -/

/-- Python membership c in s on strings, as a check over the character
sequence. -/
def pyContains (s : String) (c : Char) : Bool := s.data.contains c

/-- The header-indexing loop of mirror_repository (lines 187-218):
iterate the mirrored files; skip names without a dash (line 188); read
the RPM header; when the reader yields no header the code still
evaluates hdr[rpm.RPMTAG_NAME] on None (line 208), raising — modelled as
returning the offending filename — with the insertions made for earlier
files kept; otherwise insert (srcProject, name) then (project, name),
both mapped to srcPackage (lines 217-218). -/
def indexHeaders (project : String) : List MirFile → Bin2Pkg → Bin2Pkg × Option String
  | [], m => (m, none)
  | f :: fs, m =>
    if pyContains f.fname '-' then
      match f.hdr with
      | none => (m, some f.fname)
      | some h =>
        indexHeaders project fs
          (b2pInsert (b2pInsert m (h.srcProject, h.name) h.srcPackage)
            (project, h.name) h.srcPackage)
    else indexHeaders project fs m

/-- mirror_repository (lines 176-218) under functools.cache: a cached
(project, repository) key skips the body; otherwise the repository is
mirrored for architecture x86_64 (line 182) and its header files are
indexed. When indexing raises, the cache does not record the key and the
partially updated BIN2PKG remains. -/
def stepMirror (env : Env) (p r : String) (g : Global) : Global × Option String :=
  if (p, r) ∈ g.mirrorDone then (g, none)
  else
    match indexHeaders p (env.mirrorFiles p r "x86_64") g.bin2pkg with
    | (m, none) => ({ g with bin2pkg := m, mirrorDone := (p, r) :: g.mirrorDone }, none)
    | (m, some e) => ({ g with bin2pkg := m }, some e)

/-! ## expand_proj_deps (lines 223-295) -/

/-- The state of one expand_proj_deps run: the expanded (visited) set,
the work set, the run-local project_deps key set (line 228, keyed by
project only), and the process globals. -/
structure ExpSt where
  expanded : List PkgTarget
  work : List PkgTarget
  projDeps : List String
  g : Global
deriving DecidableEq, Repr

/-- Lines 246-249: when the edge's project is not yet a key of
project_deps, call get_project_dependencies(project, repository, arch);
under its functools.cache the body runs only for a fresh
(project, repository, arch) key, inserting
BIN2PKG[(project, subpackage)] = package for every subpackage in document
order (lines 168-172). -/
def stepGpd (env : Env) (arch : String) (b : Bdep) (s : ExpSt) : ExpSt :=
  if b.project ∈ s.projDeps then s
  else
    let s1 : ExpSt := { s with projDeps := b.project :: s.projDeps }
    if (b.project, b.repository, arch) ∈ s1.g.gpdDone then s1
    else
      { s1 with g := { s1.g with
          gpdDone := (b.project, b.repository, arch) :: s1.g.gpdDone,
          bin2pkg := (env.builddepinfo b.project b.repository arch).foldl
            (fun m pr => b2pInsert m (b.project, pr.1) pr.2) s1.g.bin2pkg } }

/-- Lines 246-293, one bdep element: load the project's dependency info,
look BIN2PKG up; on a miss log a warning and call mirror_repository — the
looked-up value is not refreshed afterwards, the re-resolution block at
lines 258-285 being commented out; when a package was found and its
target is not yet expanded, add the target to the work set (a Python set:
adding an already present element changes nothing). -/
def stepBdep (env : Env) (arch : String) (s : ExpSt) (b : Bdep) : ExpSt × Option String :=
  let s1 := stepGpd env arch b s
  match b2pLookup s1.g.bin2pkg (b.project, b.name) with
  | none =>
    let gr := stepMirror env b.project b.repository s1.g
    ({ s1 with g := gr.1 }, gr.2)
  | some v =>
    if (b.project, b.repository, v) ∈ s1.expanded then (s1, none)
    else if (b.project, b.repository, v) ∈ s1.work then (s1, none)
    else ({ s1 with work := s1.work ++ [(b.project, b.repository, v)] }, none)

/-- The for loop over the bdep elements of one _buildenv document
(lines 245-293); an exception from mirror_repository aborts it. -/
def processBdeps (env : Env) (arch : String) : List Bdep → ExpSt → ExpSt × Option String
  | [], s => (s, none)
  | b :: bs, s =>
    match stepBdep env arch s b with
    | (s1, none) => processBdeps env arch bs s1
    | (s1, some e) => (s1, some e)

/-- For each nonempty work list, the index that work_prjpkgs.pop()
removes; set pop order is unspecified, so runs are quantified over it. -/
abbrev PickFn := List PkgTarget → Nat

/-- Outcome of the while loop: normal termination, an uncaught exception
from mirror_repository, or exhaustion of the modelling fuel. -/
inductive RunRes where
  | ok (s : ExpSt)
  | err (s : ExpSt) (e : String)
  | fuelOut (s : ExpSt)
deriving DecidableEq, Repr

/-- The state carried by a run outcome. -/
def RunRes.state : RunRes → ExpSt
  | .ok s => s
  | .err s _ => s
  | .fuelOut s => s

/-- The state after work_prjpkgs.pop() removed index i of the work list
and the popped target was found already expanded (lines 230-232). -/
def popDrop (s : ExpSt) (i : Nat) : ExpSt :=
  { s with work := s.work.eraseIdx i }

/-- The state after work_prjpkgs.pop() removed index i of the work list
and the popped target t was added to the expanded set (lines 230-233). -/
def popExpand (s : ExpSt) (i : Nat) (t : PkgTarget) : ExpSt :=
  { s with expanded := t :: s.expanded, work := s.work.eraseIdx i }

/-- The while loop of expand_proj_deps (lines 229-295): pop a target,
discard it when already expanded, otherwise mark it expanded, fetch its
_buildenv and process every bdep element. -/
def expandLoop (env : Env) (arch : String) (pick : PickFn) : Nat → ExpSt → RunRes
  | 0, s => .fuelOut s
  | fuel + 1, s =>
    match s.work with
    | [] => .ok s
    | w :: _ =>
      let i := pick s.work % s.work.length
      let t := s.work.getD i w
      if t ∈ s.expanded then expandLoop env arch pick fuel (popDrop s i)
      else
        match processBdeps env arch (env.buildenv t.1 t.2.1 arch t.2.2) (popExpand s i t) with
        | (s3, none) => expandLoop env arch pick fuel s3
        | (s3, some e) => .err s3 e

/-- expand_proj_deps(project, repository, arch, pkgname) (lines 223-295)
started with global state g. -/
def expandRun (env : Env) (arch : String) (pick : PickFn) (fuel : Nat)
    (g : Global) (project repository pkgname : String) : RunRes :=
  expandLoop env arch pick fuel
    { expanded := [], work := [(project, repository, pkgname)], projDeps := [], g := g }

/-! ## RepoMirror (lines 35-153) -/

/-- Python strings of the mirror layer, modelled as character lists so
that suffix and concatenation reasoning is elementary. -/
abbrev PStr := List Char

/-- The literal ".rpm". -/
def rpmSuffix : PStr := ['.', 'r', 'p', 'm']

/-- str.endswith: the argument is a suffix of the character sequence. -/
def pEndsWith (s sfx : PStr) : Bool := decide (sfx <:+ s)

/-- One binary element of the binaryversions listing (lines 101-105):
its name and hdrmd5 attributes. -/
structure RemoteBinary where
  name : PStr
  hdrmd5 : PStr
deriving DecidableEq, Repr

/-- Python dict insertion remotebins[key] = value (line 105): replace the
value of an existing key in place, else append. -/
def dictInsert (m : List (PStr × PStr)) (k v : PStr) : List (PStr × PStr) :=
  if m.any (fun p => p.1 == k) then m.map (fun p => if p.1 == k then (k, v) else p)
  else m ++ [(k, v)]

/-- Lines 100-105: build remotebins from the listing, keeping only names
ending in .rpm and not matched by the ignore filter; the key is
hdrmd5-name and the value name without its .rpm suffix. -/
def buildRemotebins (ignore : PStr → Bool) (listing : List RemoteBinary) :
    List (PStr × PStr) :=
  listing.foldl
    (fun m b =>
      if pEndsWith b.name rpmSuffix && !ignore b.name then
        dictInsert m (b.hdrmd5 ++ ('-' :: b.name)) (b.name.take (b.name.length - 4))
      else m) []

/-- Lines 107-120: walk destdir in listing order, skip non-.rpm names,
delete from remotebins the keys already present on disk, and collect the
on-disk .rpm files absent from remotebins for deletion. Returns
(to_delete, remaining remotebins). -/
def mirrorSweep : List PStr → List (PStr × PStr) → List PStr × List (PStr × PStr)
  | [], m => ([], m)
  | f :: fs, m =>
    if pEndsWith f rpmSuffix then
      if m.any (fun p => p.1 == f) then mirrorSweep fs (m.filter (fun p => p.1 != f))
      else
        let dm := mirrorSweep fs m
        (f :: dm.1, dm.2)
    else mirrorSweep fs m

/-- extract_cpio_stream (lines 65-76): a cpio member named name-md5 is
stored as destdir/md5-name.rpm. The server function gives, for each
requested binary value, the (name, md5) pieces of the member returned. -/
def downloadName (server : PStr → PStr × PStr) (binname : PStr) : PStr :=
  (server binname).2 ++ ('-' :: (server binname).1) ++ rpmSuffix

/-- RepoMirror._mirror (lines 89-139) as a transformation of the
directory contents: build remotebins, sweep the local files, unlink the
stale ones, download the remaining entries. Returns the resulting
directory contents together with (to_delete, downloads). -/
def mirrorStep (ignore : PStr → Bool) (server : PStr → PStr × PStr)
    (listing : List RemoteBinary) (localFiles : List PStr) :
    List PStr × (List PStr × List (PStr × PStr)) :=
  let sw := mirrorSweep localFiles (buildRemotebins ignore listing)
  (localFiles.filter (fun f => f ∉ sw.1) ++ sw.2.map (fun p => downloadName server p.2),
   sw)

/-! ## RepoMirror.mirror locking (lines 141-153) -/

/-- The names bound at module scope of expand_indirect.py when
RepoMirror.mirror runs: the imports (the logging module is bound as LOG,
line 8) and the top-level definitions. No name logger is ever bound. -/
def moduleScopeNames : List String :=
  ["argparse", "functools", "itertools", "LOG", "json", "time", "urllib",
   "re", "os", "fcntl", "struct", "tempfile", "Path", "osc", "ET",
   "CpioHdr", "http_GET", "makeurl", "API_URL", "rpm", "BIN2PKG",
   "be_strict_with_errors", "rpm_ts", "RepoMirror",
   "get_project_dependencies", "mirror_repository", "expand_proj_deps",
   "main"]

/-- Outcome of the lock acquisition in RepoMirror.mirror. -/
inductive LockOutcome where
  | acquiredImmediately
  | acquiredAfterWait
  | raisedNameError (n : String)
deriving DecidableEq, Repr

/-- RepoMirror.mirror, lines 145-151: try fcntl.flock(LOCK_EX | LOCK_NB);
when that raises because another process holds the lock, the except
branch evaluates logger.info(...) before the blocking flock — which looks
the identifier logger up in the module scope. -/
def lockAcquire (contended : Bool) : LockOutcome :=
  if contended then
    if "logger" ∈ moduleScopeNames then .acquiredAfterWait
    else .raisedNameError "logger"
  else .acquiredImmediately

/-! ## Derived notions used by the verification -/

/-- Pointwise agreement of two environments on everything the code can
observe when called with architecture arch: build environments and
dependency info at arch, and mirrored files at x86_64, the architecture
hard-coded at line 182. -/
def EnvAgrees (e1 e2 : Env) (arch : String) : Prop :=
  (∀ p r k, e1.buildenv p r arch k = e2.buildenv p r arch k) ∧
  (∀ p r, e1.builddepinfo p r arch = e2.builddepinfo p r arch) ∧
  (∀ p r, e1.mirrorFiles p r "x86_64" = e2.mirrorFiles p r "x86_64")

/-- A binding (project, binary) ↦ package is obtainable from the remote
data: either some _builddepinfo document of the project lists the binary
as a subpackage of the package (tier 1, lines 168-172), or some mirrored
header file carries the binary's name with that source package, recorded
under its DISTURL source project or the mirrored project (tier 2,
lines 208-218). -/
def ResolvableAny (env : Env) (arch : String) (k : BinKey) (v : String) : Prop :=
  (∃ r, (k.2, v) ∈ env.builddepinfo k.1 r arch) ∨
  (∃ p r f h, f ∈ env.mirrorFiles p r "x86_64" ∧ f.hdr = some h ∧
    h.name = k.2 ∧ h.srcPackage = v ∧ (k.1 = h.srcProject ∨ k.1 = p))

/-- Reachability along the edge-resolution relation: from a reached
target, each bdep of its build environment together with any obtainable
resolution of the bdep's (project, name) yields the reached target
(project, repository, package). -/
inductive ReachFull (env : Env) (arch : String) (start : PkgTarget) : PkgTarget → Prop where
  | base : ReachFull env arch start start
  | step {t : PkgTarget} {b : Bdep} {v : String} :
      ReachFull env arch start t →
      b ∈ env.buildenv t.1 t.2.1 arch t.2.2 →
      ResolvableAny env arch (b.project, b.name) v →
      ReachFull env arch start (b.project, b.repository, v)

/-- Every mirrored header file whose name would be indexed can be read:
runs over such an environment raise no header-read exception. -/
def GoodEnv (env : Env) : Prop :=
  ∀ p r f, f ∈ env.mirrorFiles p r "x86_64" → pyContains f.fname '-' = true →
    (f.hdr).isSome = true

/-- The dependency info of a project does not depend on the repository
component of the query (the code queries it with the repository of the
first bdep mentioning the project, line 248). -/
def RepoUniform (env : Env) (arch : String) : Prop :=
  ∀ p r r', env.builddepinfo p r arch = env.builddepinfo p r' arch

/-- The tier-1 resolution of (project, binary): the value of the last
(subpackage, package) pair for that binary in the project's dependency
info — the last dict assignment wins. -/
def t1look (env : Env) (arch : String) (p n : String) : Option String :=
  ((env.builddepinfo p "" arch).reverse.find? (fun pr => pr.1 == n)).map (fun pr => pr.2)

/-- Reachability when every edge is resolved by tier 1. -/
inductive ReachT1 (env : Env) (arch : String) (start : PkgTarget) : PkgTarget → Prop where
  | base : ReachT1 env arch start start
  | step {t : PkgTarget} {b : Bdep} {v : String} :
      ReachT1 env arch start t →
      b ∈ env.buildenv t.1 t.2.1 arch t.2.2 →
      t1look env arch b.project b.name = some v →
      ReachT1 env arch start (b.project, b.repository, v)

/-- The projects whose dependency info has been loaded into BIN2PKG. -/
def loadedProjs (g : Global) : List String := g.gpdDone.map (fun x => x.1)

/-- A global state is clean for (env, arch): BIN2PKG is exactly the
tier-1 map of the loaded projects. -/
def CleanG (env : Env) (arch : String) (g : Global) : Prop :=
  ∀ p n, b2pLookup g.bin2pkg (p, n) =
    (if p ∈ loadedProjs g then t1look env arch p n else none)

/-- Decreasing measure of the worklist loop relative to a finite universe
U of targets and a bound B on build-environment sizes. -/
def loopMeasure (U : List PkgTarget) (B : Nat) (s : ExpSt) : Nat :=
  (U.toFinset \ s.expanded.toFinset).card * (B + 1) + s.work.length

/-- U contains every target obtainable by resolving a bdep of a member,
and build environments of members have at most B elements. -/
def ClosedUniverse (env : Env) (arch : String) (U : List PkgTarget) (B : Nat) : Prop :=
  (∀ t ∈ U, ∀ b ∈ env.buildenv t.1 t.2.1 arch t.2.2, ∀ v,
      ResolvableAny env arch (b.project, b.name) v → (b.project, b.repository, v) ∈ U) ∧
  (∀ t ∈ U, (env.buildenv t.1 t.2.1 arch t.2.2).length ≤ B)

/-- Tier-1 counterpart of ClosedUniverse: every bdep of a member has a
tier-1 resolution, the resolved targets stay in U, and build environments
of members have at most B elements. -/
def T1Closed (env : Env) (arch : String) (U : List PkgTarget) (B : Nat) : Prop :=
  (∀ t ∈ U, ∀ b ∈ env.buildenv t.1 t.2.1 arch t.2.2,
      ∃ v, t1look env arch b.project b.name = some v) ∧
  (∀ t ∈ U, ∀ b ∈ env.buildenv t.1 t.2.1 arch t.2.2, ∀ v,
      t1look env arch b.project b.name = some v → (b.project, b.repository, v) ∈ U) ∧
  (∀ t ∈ U, (env.buildenv t.1 t.2.1 arch t.2.2).length ≤ B)

/-- Loop invariant for soundness (C1): the expanded list has no
duplicates, every expanded or pending target lies in U and is reachable,
the start is never lost, and every BIN2PKG binding is obtainable from
the remote data. -/
def InvSound (env : Env) (arch : String) (start : PkgTarget) (U : List PkgTarget)
    (s : ExpSt) : Prop :=
  s.expanded.Nodup ∧
  (∀ t ∈ s.expanded, t ∈ U) ∧ (∀ t ∈ s.work, t ∈ U) ∧
  (∀ t ∈ s.expanded, ReachFull env arch start t) ∧
  (∀ t ∈ s.work, ReachFull env arch start t) ∧
  (start ∈ s.expanded ∨ start ∈ s.work) ∧
  (∀ kv ∈ s.g.bin2pkg, ResolvableAny env arch kv.1 kv.2)

/-- Loop invariant for the tier-1 characterization (C2): soundness plus a
clean global state and closedness of the expanded set up to the work
set. -/
def InvT1 (env : Env) (arch : String) (start : PkgTarget) (U : List PkgTarget)
    (s : ExpSt) : Prop :=
  s.expanded.Nodup ∧
  (∀ t ∈ s.expanded, t ∈ U) ∧ (∀ t ∈ s.work, t ∈ U) ∧
  (∀ t ∈ s.expanded, ReachT1 env arch start t) ∧
  (∀ t ∈ s.work, ReachT1 env arch start t) ∧
  (start ∈ s.expanded ∨ start ∈ s.work) ∧
  CleanG env arch s.g ∧
  (∀ P ∈ s.projDeps, P ∈ loadedProjs s.g) ∧
  (∀ t ∈ s.expanded, ∀ b ∈ env.buildenv t.1 t.2.1 arch t.2.2, ∀ v,
      t1look env arch b.project b.name = some v →
      (b.project, b.repository, v) ∈ s.expanded ∨ (b.project, b.repository, v) ∈ s.work)

/-! ## Concrete environments used as witnesses and counterexamples -/

/-- Pop order that always removes the first element. -/
def pick0 : PickFn := fun _ => 0

/-- An environment with one edge that only the expensive tier resolves:
the start package s uses binary x of project p, no dependency info lists
x, and the mirrored headers of (p, r) map x to source package xsrc. -/
def envA : Env where
  buildenv := fun p r _ k =>
    if p = "p" ∧ r = "r" ∧ k = "s" then [⟨"p", "r", "x"⟩] else []
  builddepinfo := fun _ _ _ => []
  mirrorFiles := fun p r a =>
    if p = "p" ∧ r = "r" ∧ a = "x86_64" then [⟨"x-m", some ⟨"x", "p", "xsrc"⟩⟩] else []

/-- An environment whose single edge is resolved by tier 1. -/
def envT1 : Env where
  buildenv := fun p r _ k =>
    if p = "p" ∧ r = "r" ∧ k = "s" then [⟨"p", "r", "xbin"⟩] else []
  builddepinfo := fun p _ _ => if p = "p" then [("xbin", "xsrc")] else []
  mirrorFiles := fun _ _ _ => []

/-- An environment whose mirror directory for (p, r) holds a readable
header file, then a file whose header cannot be read, then another
readable file. -/
def envC8 : Env where
  buildenv := fun _ _ _ _ => []
  builddepinfo := fun _ _ _ => []
  mirrorFiles := fun p r a =>
    if p = "p" ∧ r = "r" ∧ a = "x86_64" then
      [⟨"good-1", some ⟨"gbin", "p", "gsrc"⟩⟩, ⟨"bad-2", none⟩,
       ⟨"tail-3", some ⟨"tbin", "p", "tsrc"⟩⟩]
    else []

/-- Build environments shared by the two C9 witness environments. -/
def benvW : String → String → String → String → List Bdep := fun p r _ k =>
  if p = "p" ∧ r = "r" ∧ k = "s" then [⟨"p", "r", "x"⟩] else []

/-- Mirrored files at x86_64 shared by the two C9 witness
environments. -/
def mirW : String → String → List MirFile := fun p r =>
  if p = "p" ∧ r = "r" then [⟨"x-m", some ⟨"x", "p", "xsrc"⟩⟩] else []

/-- First C9 witness environment: no mirrored files outside x86_64. -/
def envB1 : Env where
  buildenv := benvW
  builddepinfo := fun _ _ _ => []
  mirrorFiles := fun p r a => if a = "x86_64" then mirW p r else []

/-- Second C9 witness environment: differs from envB1 only in the
mirrored files of architectures other than x86_64. -/
def envB2 : Env where
  buildenv := benvW
  builddepinfo := fun _ _ _ => []
  mirrorFiles := fun p r a => if a = "x86_64" then mirW p r else [⟨"junk-m", none⟩]

/-! ## Theorems -/

/-- C4: RepoMirror.mirror is claimed to block until the advisory lock on
destDir/.lock becomes available when another process holds it. In the
code the contended branch (line 149) references the name logger, which is
never bound — the logging module is imported as LOG — so the call raises
NameError instead of logging and then blocking on flock(LOCK_EX). -/
theorem c4_contended_lock_raises_name_error :
    lockAcquire true = LockOutcome.raisedNameError "logger" := by decide

/-- stepGpd never changes the expanded or work components. -/
theorem stepGpd_expanded_work (env : Env) (arch : String) (b : Bdep) (s : ExpSt) :
    (stepGpd env arch b s).expanded = s.expanded ∧ (stepGpd env arch b s).work = s.work := by
  by_cases h1 : b.project ∈ s.projDeps
  · simp [stepGpd, h1]
  · by_cases h2 : (b.project, b.repository, arch) ∈ s.g.gpdDone
    · simp [stepGpd, h1, h2]
    · simp [stepGpd, h1, h2]

/-- C3 (amended): when the BIN2PKG lookup of a bdep misses after loading
the project's dependency info, mirror_repository runs, but the edge is
left unexpanded unconditionally: the work set is unchanged even when the
freshly mirrored headers did record a mapping for the binary, because the
re-resolution after mirroring (lines 258-285) is commented out. Only a
later examination of the same (project, name) key can use the mapping. -/
theorem c3_miss_mirrors_but_edge_skipped (env : Env) (arch : String)
    (s : ExpSt) (b : Bdep)
    (hmiss : b2pLookup (stepGpd env arch b s).g.bin2pkg (b.project, b.name) = none) :
    (stepBdep env arch s b).1.work = s.work ∧
    (stepBdep env arch s b).1.g
      = (stepMirror env b.project b.repository (stepGpd env arch b s).g).1 ∧
    (stepBdep env arch s b).2
      = (stepMirror env b.project b.repository (stepGpd env arch b s).g).2 := by
  have hw := (stepGpd_expanded_work env arch b s).2
  simp only [stepBdep, hmiss]
  exact ⟨hw, trivial, trivial⟩

/-- Header indexing runs through readable files and stops at the first
file with a dash in its name whose header cannot be read, keeping the
insertions made for the earlier files and reporting that file. -/
theorem indexHeaders_stops_at_bad (project : String) (good : List MirFile)
    (bad : MirFile) (rest : List MirFile) (m : Bin2Pkg)
    (hgood : ∀ f ∈ good, pyContains f.fname '-' = true → (f.hdr).isSome = true)
    (hbadname : pyContains bad.fname '-' = true)
    (hbad : bad.hdr = none) :
    indexHeaders project (good ++ bad :: rest) m
      = ((indexHeaders project good m).1, some bad.fname) := by
  induction good generalizing m with
  | nil => simp [indexHeaders, hbadname, hbad]
  | cons f fs ih =>
    by_cases hc : pyContains f.fname '-' = true
    · obtain ⟨h, hh⟩ := Option.isSome_iff_exists.mp (hgood f (by simp) hc)
      simp only [List.cons_append, indexHeaders, hc, if_true, hh]
      exact ih _ (fun f' hf hcf => hgood f' (List.mem_cons_of_mem _ hf) hcf)
    · simp only [List.cons_append, indexHeaders, hc, if_false]
      exact ih m (fun f' hf hcf => hgood f' (List.mem_cons_of_mem _ hf) hcf)

/-- C8: when the RPM header reader fails on some mirrored file,
mirror_repository does not skip the file: the subsequent access to the
header's name field raises, aborting the indexing of that
(project, repository) — which functools.cache therefore does not record —
while the BIN2PKG entries recorded for the files processed earlier in the
same call remain in the cache. -/
theorem c8_mirror_indexing_aborts (env : Env) (p r : String) (g : Global)
    (good : List MirFile) (bad : MirFile) (rest : List MirFile)
    (hnm : (p, r) ∉ g.mirrorDone)
    (hfiles : env.mirrorFiles p r "x86_64" = good ++ bad :: rest)
    (hgood : ∀ f ∈ good, pyContains f.fname '-' = true → (f.hdr).isSome = true)
    (hbadname : pyContains bad.fname '-' = true)
    (hbad : bad.hdr = none) :
    stepMirror env p r g
      = ({ g with bin2pkg := (indexHeaders p good g.bin2pkg).1 }, some bad.fname) := by
  unfold stepMirror
  rw [if_neg hnm, hfiles,
    indexHeaders_stops_at_bad p good bad rest g.bin2pkg hgood hbadname hbad]

/-- A dict assignment keeps every present key present. -/
theorem b2pLookup_isSome_cons (x : BinKey × String) (m : Bin2Pkg) (k : BinKey)
    (h : (b2pLookup m k).isSome = true) :
    (b2pLookup (x :: m) k).isSome = true := by
  unfold b2pLookup at h ⊢
  by_cases hx : (x.1 == k) = true
  · simp [List.find?_cons, hx]
  · rw [show List.find? (fun p => p.1 == k) (x :: m) = List.find? (fun p => p.1 == k) m
      from by simp [List.find?_cons, hx]]
    exact h

/-- A sequence of dict assignments keeps every present key present. -/
theorem b2pLookup_isSome_foldl_insert {α : Type} (key : α → BinKey) (val : α → String)
    (l : List α) (m : Bin2Pkg) (k : BinKey)
    (h : (b2pLookup m k).isSome = true) :
    (b2pLookup (l.foldl (fun m' a => b2pInsert m' (key a) (val a)) m) k).isSome = true := by
  induction l generalizing m with
  | nil => exact h
  | cons a l ih => exact ih _ (b2pLookup_isSome_cons _ _ _ h)

/-- Header indexing only inserts bindings, also on the aborting path. -/
theorem indexHeaders_isSome_mono (project : String) (fs : List MirFile) (m : Bin2Pkg)
    (k : BinKey) (h : (b2pLookup m k).isSome = true) :
    (b2pLookup (indexHeaders project fs m).1 k).isSome = true := by
  induction fs generalizing m with
  | nil => exact h
  | cons f fs ih =>
    by_cases hc : pyContains f.fname '-' = true
    · cases hh : f.hdr with
      | none =>
        simp only [indexHeaders, hc, if_true, hh]
        exact h
      | some hd =>
        simp only [indexHeaders, hc, if_true, hh]
        exact ih _ (b2pLookup_isSome_cons _ _ _ (b2pLookup_isSome_cons _ _ _ h))
    · simp only [indexHeaders, hc, if_false]
      exact ih _ h

/-- mirror_repository only inserts bindings. -/
theorem stepMirror_isSome_mono (env : Env) (p r : String) (g : Global) (k : BinKey)
    (h : (b2pLookup g.bin2pkg k).isSome = true) :
    (b2pLookup (stepMirror env p r g).1.bin2pkg k).isSome = true := by
  unfold stepMirror
  by_cases hm : (p, r) ∈ g.mirrorDone
  · simp only [hm, if_true]
    exact h
  · simp only [hm, if_false]
    have hidx := indexHeaders_isSome_mono p (env.mirrorFiles p r "x86_64") g.bin2pkg k h
    cases he : indexHeaders p (env.mirrorFiles p r "x86_64") g.bin2pkg with
    | mk m1 e =>
      rw [he] at hidx
      cases e
      · simpa using hidx
      · simpa using hidx

/-- get_project_dependencies only inserts bindings. -/
theorem stepGpd_isSome_mono (env : Env) (arch : String) (b : Bdep) (s : ExpSt) (k : BinKey)
    (h : (b2pLookup s.g.bin2pkg k).isSome = true) :
    (b2pLookup (stepGpd env arch b s).g.bin2pkg k).isSome = true := by
  by_cases h1 : b.project ∈ s.projDeps
  · simp only [stepGpd, h1, if_true]
    exact h
  · by_cases h2 : (b.project, b.repository, arch) ∈ s.g.gpdDone
    · simp only [stepGpd, h1, if_false, h2, if_true]
      exact h
    · simp only [stepGpd, h1, if_false, h2]
      exact b2pLookup_isSome_foldl_insert (fun pr : String × String => (b.project, pr.1))
        (fun pr : String × String => pr.2) _ _ _ h

/-- One bdep step only inserts bindings. -/
theorem stepBdep_isSome_mono (env : Env) (arch : String) (s : ExpSt) (b : Bdep) (k : BinKey)
    (h : (b2pLookup s.g.bin2pkg k).isSome = true) :
    (b2pLookup (stepBdep env arch s b).1.g.bin2pkg k).isSome = true := by
  have h1 := stepGpd_isSome_mono env arch b s k h
  cases hl : b2pLookup (stepGpd env arch b s).g.bin2pkg (b.project, b.name) with
  | none =>
    simp only [stepBdep, hl]
    exact stepMirror_isSome_mono env b.project b.repository _ k h1
  | some v =>
    simp only [stepBdep, hl]
    split
    · exact h1
    · split
      · exact h1
      · exact h1

/-- The bdep loop only inserts bindings. -/
theorem processBdeps_isSome_mono (env : Env) (arch : String) (bs : List Bdep) (s : ExpSt)
    (k : BinKey) (h : (b2pLookup s.g.bin2pkg k).isSome = true) :
    (b2pLookup (processBdeps env arch bs s).1.g.bin2pkg k).isSome = true := by
  induction bs generalizing s with
  | nil => exact h
  | cons b bs ih =>
    have hb := stepBdep_isSome_mono env arch s b k h
    cases hsb : stepBdep env arch s b with
    | mk s1 e =>
      rw [hsb] at hb
      cases e with
      | none =>
        simp only [processBdeps, hsb]
        exact ih s1 hb
      | some err =>
        simp only [processBdeps, hsb]
        exact hb

/-- C7: the BIN2PKG cache is append-only over a whole run of the worklist
loop: any key present at some point is still present at the end, whether
the loop terminates normally, aborts with an exception, or is cut off.
The three code sites touching the cache (get_project_dependencies, the
two inserts of mirror_repository, and the lookup in expand_proj_deps)
only insert bindings and never delete any. -/
theorem c7_bin2pkg_append_only (env : Env) (arch : String) (pick : PickFn) (fuel : Nat)
    (s : ExpSt) (k : BinKey) (h : (b2pLookup s.g.bin2pkg k).isSome = true) :
    (b2pLookup (expandLoop env arch pick fuel s).state.g.bin2pkg k).isSome = true := by
  induction fuel generalizing s with
  | zero => exact h
  | succ n ih =>
    cases hw : s.work with
    | nil =>
      simp only [expandLoop, hw]
      exact h
    | cons w ws =>
      simp only [expandLoop, hw]
      split
      · exact ih _ h
      · have hp := processBdeps_isSome_mono env arch
          (env.buildenv ((w :: ws).getD (pick (w :: ws) % (w :: ws).length) w).1
            ((w :: ws).getD (pick (w :: ws) % (w :: ws).length) w).2.1 arch
            ((w :: ws).getD (pick (w :: ws) % (w :: ws).length) w).2.2)
          (popExpand s (pick (w :: ws) % (w :: ws).length)
            ((w :: ws).getD (pick (w :: ws) % (w :: ws).length) w)) k h
        split
        · rename_i heq
          rw [heq] at hp
          exact ih _ hp
        · rename_i heq
          rw [heq] at hp
          exact hp

/-- C7 witness: a binding present before a concrete run is still present
after it. -/
theorem c7_bin2pkg_append_only_witness :
    (b2pLookup (⟨[(("q", "y"), "z")], [], []⟩ : Global).bin2pkg ("q", "y")).isSome = true
    ∧ (b2pLookup (expandLoop envA "a" pick0 10
        { expanded := [], work := [("p", "r", "s")], projDeps := [],
          g := ⟨[(("q", "y"), "z")], [], []⟩ }).state.g.bin2pkg ("q", "y")).isSome = true :=
  ⟨by decide, c7_bin2pkg_append_only envA "a" pick0 10
    { expanded := [], work := [("p", "r", "s")], projDeps := [],
      g := ⟨[(("q", "y"), "z")], [], []⟩ } ("q", "y") (by decide)⟩

/-- get_project_dependencies reads only the dependency info at the
caller-supplied architecture. -/
theorem stepGpd_congr (e1 e2 : Env) (arch : String) (b : Bdep) (s : ExpSt)
    (h2 : ∀ p r, e1.builddepinfo p r arch = e2.builddepinfo p r arch) :
    stepGpd e1 arch b s = stepGpd e2 arch b s := by
  unfold stepGpd
  rw [h2]

/-- mirror_repository reads only the mirrored files at x86_64. -/
theorem stepMirror_congr (e1 e2 : Env) (p r : String) (g : Global)
    (h3 : ∀ p' r', e1.mirrorFiles p' r' "x86_64" = e2.mirrorFiles p' r' "x86_64") :
    stepMirror e1 p r g = stepMirror e2 p r g := by
  unfold stepMirror
  rw [h3]

/-- A bdep step depends on the environment only through the dependency
info at the caller's architecture and the mirrored files at x86_64. -/
theorem stepBdep_congr (e1 e2 : Env) (arch : String) (s : ExpSt) (b : Bdep)
    (h2 : ∀ p r, e1.builddepinfo p r arch = e2.builddepinfo p r arch)
    (h3 : ∀ p' r', e1.mirrorFiles p' r' "x86_64" = e2.mirrorFiles p' r' "x86_64") :
    stepBdep e1 arch s b = stepBdep e2 arch s b := by
  have hg := stepGpd_congr e1 e2 arch b s h2
  have hm := stepMirror_congr e1 e2 b.project b.repository (stepGpd e2 arch b s).g h3
  simp only [stepBdep, hg, hm]

/-- The bdep loop depends on the environment only through the dependency
info at the caller's architecture and the mirrored files at x86_64. -/
theorem processBdeps_congr (e1 e2 : Env) (arch : String) (bs : List Bdep) (s : ExpSt)
    (h2 : ∀ p r, e1.builddepinfo p r arch = e2.builddepinfo p r arch)
    (h3 : ∀ p' r', e1.mirrorFiles p' r' "x86_64" = e2.mirrorFiles p' r' "x86_64") :
    processBdeps e1 arch bs s = processBdeps e2 arch bs s := by
  induction bs generalizing s with
  | nil => rfl
  | cons b bs ih =>
    simp only [processBdeps]
    rw [stepBdep_congr e1 e2 arch s b h2 h3]
    cases hsb : stepBdep e2 arch s b with
    | mk s1 e =>
      cases e
      · exact ih s1
      · rfl

/-- C9: the expensive resolution tier always mirrors and indexes the
x86_64 architecture of the owning (project, repository), irrespective of
the architecture passed to expand_proj_deps, while the tier-1 dependency
info query and the build-environment fetch use the caller-supplied
architecture: a run observes the environment only through the build
environments and dependency info at the caller's architecture and the
mirrored files at x86_64. -/
theorem c9_mirror_always_x86_64 (e1 e2 : Env) (arch : String) (pick : PickFn)
    (fuel : Nat) (s : ExpSt) (h : EnvAgrees e1 e2 arch) :
    expandLoop e1 arch pick fuel s = expandLoop e2 arch pick fuel s := by
  obtain ⟨h1, h2, h3⟩ := h
  induction fuel generalizing s with
  | zero => rfl
  | succ n ih =>
    cases hw : s.work with
    | nil => simp only [expandLoop, hw]
    | cons w ws =>
      simp only [expandLoop, hw]
      by_cases hin : (w :: ws).getD (pick (w :: ws) % (w :: ws).length) w ∈ s.expanded
      · simp only [hin, if_true]
        exact ih _
      · simp only [hin, if_false]
        rw [h1, processBdeps_congr e1 e2 arch _ _ h2 h3]
        cases hpb : processBdeps e2 arch
          (e2.buildenv ((w :: ws).getD (pick (w :: ws) % (w :: ws).length) w).1
            ((w :: ws).getD (pick (w :: ws) % (w :: ws).length) w).2.1 arch
            ((w :: ws).getD (pick (w :: ws) % (w :: ws).length) w).2.2)
          (popExpand s (pick (w :: ws) % (w :: ws).length)
            ((w :: ws).getD (pick (w :: ws) % (w :: ws).length) w)) with
        | mk s3 e =>
          cases e
          · exact ih s3
          · rfl

/-- C9 witness: two environments that differ only in the mirrored files
of architectures other than x86_64 produce identical runs at
architecture a. -/
theorem c9_mirror_always_x86_64_witness :
    EnvAgrees envB1 envB2 "a" ∧
    expandLoop envB1 "a" pick0 10
      { expanded := [], work := [("p", "r", "s")], projDeps := [], g := Global.empty }
    = expandLoop envB2 "a" pick0 10
      { expanded := [], work := [("p", "r", "s")], projDeps := [], g := Global.empty } := by
  have hag : EnvAgrees envB1 envB2 "a" :=
    ⟨fun p r k => rfl, fun p r => rfl, fun p r => by simp [envB1, envB2]⟩
  exact ⟨hag, c9_mirror_always_x86_64 envB1 envB2 "a" pick0 10 _ hag⟩

/-- C8 witness: on a concrete mirror directory whose second file has an
unreadable header, mirror_repository aborts reporting that file, keeps
the two bindings recorded for the first file, indexes nothing after the
bad file, and leaves the (project, repository) key uncached. -/
theorem c8_mirror_indexing_aborts_witness :
    stepMirror envC8 "p" "r" Global.empty
      = (⟨[(("p", "gbin"), "gsrc"), (("p", "gbin"), "gsrc")], [], []⟩, some "bad-2") := by
  rw [c8_mirror_indexing_aborts envC8 "p" "r" Global.empty
    [⟨"good-1", some ⟨"gbin", "p", "gsrc"⟩⟩] ⟨"bad-2", none⟩
    [⟨"tail-3", some ⟨"tbin", "p", "tsrc"⟩⟩]
    (by decide) (by decide) (by decide) (by decide) rfl]
  decide

/-- C3 witness: on a concrete state with an empty cache, the bdep for
binary x of project p misses, the mirror runs (recording the mapping for
x), and yet the work set is left unchanged. -/
theorem c3_miss_mirrors_but_edge_skipped_witness :
    b2pLookup (stepGpd envA "a" ⟨"p", "r", "x"⟩
        { expanded := [], work := [("p", "r", "s")], projDeps := [],
          g := Global.empty }).g.bin2pkg ("p", "x") = none ∧
    ((stepBdep envA "a"
        { expanded := [], work := [("p", "r", "s")], projDeps := [],
          g := Global.empty } ⟨"p", "r", "x"⟩).1.work = [("p", "r", "s")] ∧
      (stepBdep envA "a"
        { expanded := [], work := [("p", "r", "s")], projDeps := [],
          g := Global.empty } ⟨"p", "r", "x"⟩).1.g
        = (stepMirror envA "p" "r"
            (stepGpd envA "a" ⟨"p", "r", "x"⟩
              { expanded := [], work := [("p", "r", "s")], projDeps := [],
                g := Global.empty }).g).1) :=
  ⟨by decide,
   ⟨(c3_miss_mirrors_but_edge_skipped envA "a"
      { expanded := [], work := [("p", "r", "s")], projDeps := [], g := Global.empty }
      ⟨"p", "r", "x"⟩ (by decide)).1,
    (c3_miss_mirrors_but_edge_skipped envA "a"
      { expanded := [], work := [("p", "r", "s")], projDeps := [], g := Global.empty }
      ⟨"p", "r", "x"⟩ (by decide)).2.1⟩⟩

/-- C3 counterexample: in the environment envA the only edge resolves
through the freshly mirrored headers — the run's final BIN2PKG maps
(p, x) to xsrc — and still the resolved target (p, r, xsrc) was never
inserted into the frontier: the run ends with it unvisited and the work
set empty. -/
theorem c3_fresh_mapping_edge_not_inserted :
    b2pLookup (expandRun envA "a" pick0 10 Global.empty "p" "r" "s").state.g.bin2pkg
        ("p", "x") = some "xsrc" ∧
    (expandRun envA "a" pick0 10 Global.empty "p" "r" "s").state.work = [] ∧
    ("p", "r", "xsrc") ∉ (expandRun envA "a" pick0 10 Global.empty "p" "r" "s").state.expanded := by
  exact ⟨by decide, by decide, by decide⟩

/-- C2 counterexample: two consecutive runs of expand_proj_deps from the
same start against the unchanged environment envA return different
visited sets: the first run (cold caches) misses the mirror-resolved
edge, while the second run resolves it from the BIN2PKG state the first
run left behind. -/
theorem c2_second_run_differs :
    ("p", "r", "xsrc") ∉ (expandRun envA "a" pick0 10 Global.empty "p" "r" "s").state.expanded ∧
    ("p", "r", "xsrc") ∈ (expandRun envA "a" pick0 10
        (expandRun envA "a" pick0 10 Global.empty "p" "r" "s").state.g
        "p" "r" "s").state.expanded := by
  exact ⟨by decide, by decide⟩

/-- C1 counterexample: in envA the target (p, r, xsrc) is reachable from
(p, r, s) via the edge-resolution relation — the edge resolves through
the mirrored headers — yet the run (which terminates normally) returns a
visited set without it: the returned set is not the reachable set. -/
theorem c1_visited_set_not_reachable_set :
    ReachFull envA "a" ("p", "r", "s") ("p", "r", "xsrc") ∧
    (expandRun envA "a" pick0 10 Global.empty "p" "r" "s")
      = RunRes.ok ⟨[("p", "r", "s")], [], ["p"],
          ⟨[(("p", "x"), "xsrc"), (("p", "x"), "xsrc")],
           [("p", "r", "a")], [("p", "r")]⟩⟩ ∧
    ("p", "r", "xsrc") ∉ [(("p", "r", "s") : PkgTarget)] := by
  refine ⟨?_, by decide, by decide⟩
  have hb : (⟨"p", "r", "x"⟩ : Bdep) ∈ envA.buildenv "p" "r" "a" "s" := by decide
  have hres : ResolvableAny envA "a" ("p", "x") "xsrc" := by
    right
    exact ⟨"p", "r", ⟨"x-m", some ⟨"x", "p", "xsrc"⟩⟩, ⟨"x", "p", "xsrc"⟩,
      by decide, rfl, rfl, rfl, Or.inl rfl⟩
  exact @ReachFull.step envA "a" ("p", "r", "s") ("p", "r", "s") ⟨"p", "r", "x"⟩ "xsrc"
    ReachFull.base hb hres

/-- Appending a suffix yields that suffix. -/
theorem pEndsWith_append (a sfx : PStr) : pEndsWith (a ++ sfx) sfx = true := by
  simp only [pEndsWith, decide_eq_true_eq]
  exact List.suffix_append a sfx

/-- A suffix of a string is a suffix of any left extension of it. -/
theorem pEndsWith_append_left (a t sfx : PStr) (h : pEndsWith t sfx = true) :
    pEndsWith (a ++ t) sfx = true := by
  simp only [pEndsWith, decide_eq_true_eq] at h ⊢
  exact h.trans (List.suffix_append a t)

/-- Mapping first components commutes with filtering on the first
component. -/
theorem map_fst_filter_comm (q : PStr → Bool) (m : List (PStr × PStr)) :
    (m.filter (fun p => q p.1)).map Prod.fst = (m.map Prod.fst).filter q := by
  induction m with
  | nil => rfl
  | cons x xs ih =>
    by_cases hx : q x.1 = true
    · simp [List.filter_cons, hx, ih]
    · simp [List.filter_cons, hx, ih]

/-- Bool bridge: the any-scan of a dict for a key is its key
membership. -/
theorem any_key_iff (m : List (PStr × PStr)) (f : PStr) :
    (m.any (fun p => p.1 == f)) = true ↔ f ∈ m.map Prod.fst := by
  rw [List.any_eq_true]
  constructor
  · rintro ⟨p, hp, he⟩
    have h1 : p.1 = f := by simpa using he
    exact h1 ▸ List.mem_map_of_mem _ hp
  · intro hf
    obtain ⟨p, hp, he⟩ := List.mem_map.mp hf
    exact ⟨p, hp, by simp [he]⟩

/-- dict insertion over a present key keeps the key list unchanged. -/
theorem keys_dictInsert_present (m : List (PStr × PStr)) (k v : PStr)
    (hk : (m.any (fun p => p.1 == k)) = true) :
    (dictInsert m k v).map Prod.fst = m.map Prod.fst := by
  unfold dictInsert
  rw [if_pos hk, List.map_map]
  apply List.map_congr_left
  intro p hp
  simp only [Function.comp_apply]
  by_cases hpk : (p.1 == k) = true
  · rw [if_pos hpk]
    have h1 : p.1 = k := by simpa using hpk
    exact h1.symm
  · rw [if_neg hpk]

/-- dict insertion of an absent key appends it to the key list. -/
theorem keys_dictInsert_absent (m : List (PStr × PStr)) (k v : PStr)
    (hk : ¬ (m.any (fun p => p.1 == k)) = true) :
    (dictInsert m k v).map Prod.fst = m.map Prod.fst ++ [k] := by
  unfold dictInsert
  rw [if_neg hk, List.map_append]
  rfl

/-- dict insertion: the key set gains exactly the inserted key. -/
theorem mem_keys_dictInsert (m : List (PStr × PStr)) (k v f : PStr) :
    f ∈ (dictInsert m k v).map Prod.fst ↔ f = k ∨ f ∈ m.map Prod.fst := by
  by_cases hk : (m.any (fun p => p.1 == k)) = true
  · rw [keys_dictInsert_present m k v hk]
    constructor
    · exact Or.inr
    · rintro (rfl | hf)
      · rw [any_key_iff] at hk
        exact hk
      · exact hf
  · rw [keys_dictInsert_absent m k v hk]
    simp [or_comm]

/-- dict insertion keeps key lists duplicate-free. -/
theorem keys_nodup_dictInsert (m : List (PStr × PStr)) (k v : PStr)
    (h : (m.map Prod.fst).Nodup) : ((dictInsert m k v).map Prod.fst).Nodup := by
  by_cases hk : (m.any (fun p => p.1 == k)) = true
  · rw [keys_dictInsert_present m k v hk]
    exact h
  · rw [keys_dictInsert_absent m k v hk]
    rw [List.nodup_append]
    refine ⟨h, List.nodup_singleton k, ?_⟩
    intro a ha hka
    rw [List.mem_singleton] at hka
    subst hka
    rw [← any_key_iff] at ha
    exact hk ha

/-- Key lists built from a binary listing are duplicate-free. -/
theorem buildRemotebins_keys_nodup (ignore : PStr → Bool) (listing : List RemoteBinary) :
    ((buildRemotebins ignore listing).map Prod.fst).Nodup := by
  unfold buildRemotebins
  have h : ∀ (acc : List (PStr × PStr)), (acc.map Prod.fst).Nodup →
      ((listing.foldl (fun m b =>
        if pEndsWith b.name rpmSuffix && !ignore b.name then
          dictInsert m (b.hdrmd5 ++ ('-' :: b.name)) (b.name.take (b.name.length - 4))
        else m) acc).map Prod.fst).Nodup := by
    induction listing with
    | nil => intro acc hacc; exact hacc
    | cons b bs ih =>
      intro acc hacc
      simp only [List.foldl_cons]
      by_cases hg : (pEndsWith b.name rpmSuffix && !ignore b.name) = true
      · rw [if_pos hg]
        exact ih _ (keys_nodup_dictInsert _ _ _ hacc)
      · rw [if_neg hg]
        exact ih _ hacc
  exact h [] List.nodup_nil

/-- Every key of the remote dict ends in .rpm. -/
theorem buildRemotebins_keys_rpm (ignore : PStr → Bool) (listing : List RemoteBinary) :
    ∀ k ∈ (buildRemotebins ignore listing).map Prod.fst, pEndsWith k rpmSuffix = true := by
  unfold buildRemotebins
  have h : ∀ (acc : List (PStr × PStr)),
      (∀ k ∈ acc.map Prod.fst, pEndsWith k rpmSuffix = true) →
      ∀ k ∈ (listing.foldl (fun m b =>
        if pEndsWith b.name rpmSuffix && !ignore b.name then
          dictInsert m (b.hdrmd5 ++ ('-' :: b.name)) (b.name.take (b.name.length - 4))
        else m) acc).map Prod.fst, pEndsWith k rpmSuffix = true := by
    induction listing with
    | nil => intro acc hacc; exact hacc
    | cons b bs ih =>
      intro acc hacc
      simp only [List.foldl_cons]
      by_cases hg : (pEndsWith b.name rpmSuffix && !ignore b.name) = true
      · rw [if_pos hg]
        refine ih _ ?_
        intro k hk
        rw [mem_keys_dictInsert] at hk
        rcases hk with rfl | hk
        · have hrpm : pEndsWith b.name rpmSuffix = true := by
            have := hg
            simp only [Bool.and_eq_true] at this
            exact this.1
          have h2 : b.hdrmd5 ++ ('-' :: b.name) = (b.hdrmd5 ++ ['-']) ++ b.name := by
            simp
          rw [h2]
          exact pEndsWith_append_left _ _ _ hrpm
        · exact hacc k hk
      · rw [if_neg hg]
        exact ih _ hacc
  exact h [] (by intro k hk; cases hk)

/-- A listed binary passing the filters contributes its hdrmd5-name
key. -/
theorem buildRemotebins_mem_key (ignore : PStr → Bool) (listing : List RemoteBinary)
    (b : RemoteBinary) (hb : b ∈ listing)
    (hg : (pEndsWith b.name rpmSuffix && !ignore b.name) = true) :
    (b.hdrmd5 ++ ('-' :: b.name)) ∈ (buildRemotebins ignore listing).map Prod.fst := by
  unfold buildRemotebins
  have hstep : ∀ (acc : List (PStr × PStr)) (bs : List RemoteBinary),
      (b.hdrmd5 ++ ('-' :: b.name)) ∈ acc.map Prod.fst →
      (b.hdrmd5 ++ ('-' :: b.name)) ∈ ((bs.foldl (fun m b' =>
        if pEndsWith b'.name rpmSuffix && !ignore b'.name then
          dictInsert m (b'.hdrmd5 ++ ('-' :: b'.name)) (b'.name.take (b'.name.length - 4))
        else m) acc).map Prod.fst) := by
    intro acc bs
    induction bs generalizing acc with
    | nil => intro h; exact h
    | cons b' bs ih =>
      intro h
      simp only [List.foldl_cons]
      by_cases hg' : (pEndsWith b'.name rpmSuffix && !ignore b'.name) = true
      · rw [if_pos hg']
        exact ih _ ((mem_keys_dictInsert _ _ _ _).mpr (Or.inr h))
      · rw [if_neg hg']
        exact ih _ h
  have hsplit : ∀ (acc : List (PStr × PStr)) (l : List RemoteBinary), b ∈ l →
      (b.hdrmd5 ++ ('-' :: b.name)) ∈ ((l.foldl (fun m b' =>
        if pEndsWith b'.name rpmSuffix && !ignore b'.name then
          dictInsert m (b'.hdrmd5 ++ ('-' :: b'.name)) (b'.name.take (b'.name.length - 4))
        else m) acc).map Prod.fst) := by
    intro acc l
    induction l generalizing acc with
    | nil => intro h; cases h
    | cons b' bs ih =>
      intro hmem
      simp only [List.foldl_cons]
      rcases List.mem_cons.mp hmem with rfl | hmem
      · rw [if_pos hg]
        exact hstep _ bs ((mem_keys_dictInsert _ _ _ _).mpr (Or.inl rfl))
      · by_cases hg' : (pEndsWith b'.name rpmSuffix && !ignore b'.name) = true
        · rw [if_pos hg']
          exact ih _ hmem
        · rw [if_neg hg']
          exact ih _ hmem
  exact hsplit [] listing hb

/-- Files collected for deletion all end in .rpm. -/
theorem mirrorSweep_dels_rpm (l : List PStr) (m : List (PStr × PStr)) :
    ∀ f ∈ (mirrorSweep l m).1, pEndsWith f rpmSuffix = true := by
  induction l generalizing m with
  | nil => intro f hf; cases hf
  | cons f fs ih =>
    by_cases hr : pEndsWith f rpmSuffix = true
    · by_cases hm : (m.any (fun p => p.1 == f)) = true
      · simp only [mirrorSweep, hr, if_true, hm]
        exact ih _
      · simp only [mirrorSweep, hr, if_true, hm, if_false]
        intro g hg
        rcases List.mem_cons.mp hg with rfl | hg
        · exact hr
        · exact ih m g hg
    · simp only [mirrorSweep, hr, if_false]
      exact ih m

/-- C10: a mirror pass deletes only files whose names end in .rpm; every
other file of the destination directory — in particular the .lock
sentinel — stays in the resulting directory listing, and every file the
pass writes (the downloaded header entries) also ends in .rpm, so no
non-.rpm file is rewritten either. -/
theorem c10_only_rpm_deleted (ignore : PStr → Bool) (server : PStr → PStr × PStr)
    (listing : List RemoteBinary) (localFiles : List PStr) :
    (∀ f ∈ (mirrorStep ignore server listing localFiles).2.1,
      pEndsWith f rpmSuffix = true) ∧
    (∀ f ∈ localFiles, pEndsWith f rpmSuffix = false →
      f ∈ (mirrorStep ignore server listing localFiles).1) ∧
    (∀ q ∈ (mirrorStep ignore server listing localFiles).2.2,
      pEndsWith (downloadName server q.2) rpmSuffix = true) := by
  refine ⟨?_, ?_, ?_⟩
  · intro f hf
    exact mirrorSweep_dels_rpm localFiles (buildRemotebins ignore listing) f hf
  · intro f hf hnotrpm
    have hnd : f ∉ (mirrorStep ignore server listing localFiles).2.1 := by
      intro hcon
      have := mirrorSweep_dels_rpm localFiles (buildRemotebins ignore listing) f hcon
      rw [this] at hnotrpm
      cases hnotrpm
    simp only [mirrorStep, List.mem_append]
    left
    rw [List.mem_filter]
    exact ⟨hf, by simpa using hnd⟩
  · intro q hq
    unfold downloadName
    exact pEndsWith_append _ _

/-- C10 witness: on a concrete directory holding the .lock sentinel, a
stale package and a current one, the deletion list contains only the
.rpm name and the .lock file survives the pass. -/
theorem c10_only_rpm_deleted_witness :
    pEndsWith ".lock".toList rpmSuffix = false ∧
    ".lock".toList ∈ (mirrorStep (fun _ => false)
      (fun n => (n, "aa".toList))
      [⟨"foo.rpm".toList, "aa".toList⟩]
      [".lock".toList, "bb-old.rpm".toList]).1 :=
  ⟨by decide,
   (c10_only_rpm_deleted (fun _ => false) (fun n => (n, "aa".toList))
      [⟨"foo.rpm".toList, "aa".toList⟩]
      [".lock".toList, "bb-old.rpm".toList]).2.1
     ".lock".toList (by decide) (by decide)⟩

/-- Scanning for one key is unaffected by dropping entries with a
different key. -/
theorem any_key_filter_ne (m : List (PStr × PStr)) (f g : PStr) (hgf : g ≠ f) :
    ((m.filter (fun p => p.1 != f)).any (fun p => p.1 == g))
      = (m.any (fun p => p.1 == g)) := by
  induction m with
  | nil => rfl
  | cons x xs ih =>
    by_cases hxf : (x.1 != f) = true
    · simp only [List.filter_cons, hxf, if_true, List.any_cons, ih]
    · have hx1 : x.1 = f := by simpa using hxf
      have hxf' : (x.1 != f) = false := by simp [hx1]
      have hxg : (x.1 == g) = false := by
        rw [hx1]
        exact beq_eq_false_iff_ne.mpr (Ne.symm hgf)
      simp only [List.filter_cons, hxf', Bool.false_eq_true, if_false, List.any_cons,
        hxg, ih, Bool.false_or]

/-- Closed form of the destdir sweep over a duplicate-free directory
listing (lines 107-115): the deletion list collects the local .rpm files
whose name is no remote key, and the surviving remote entries are those
whose key is not a local .rpm file. -/
theorem mirrorSweep_eq (l : List PStr) (m : List (PStr × PStr)) (hnd : l.Nodup) :
    mirrorSweep l m
      = (l.filter (fun f => pEndsWith f rpmSuffix && !(m.any (fun p => p.1 == f))),
         m.filter (fun p => !(decide (p.1 ∈ l) && pEndsWith p.1 rpmSuffix))) := by
  induction l generalizing m with
  | nil => simp [mirrorSweep]
  | cons f fs ih =>
    have hfs : fs.Nodup := (List.nodup_cons.mp hnd).2
    have hf : f ∉ fs := (List.nodup_cons.mp hnd).1
    by_cases hr : pEndsWith f rpmSuffix = true
    · by_cases hm : (m.any (fun p => p.1 == f)) = true
      · simp only [mirrorSweep, hr, if_true, hm]
        rw [ih _ hfs, Prod.mk.injEq]
        constructor
        · rw [List.filter_cons]
          have hcond : (pEndsWith f rpmSuffix && !(m.any (fun p => p.1 == f))) = false := by
            rw [hr, hm]
            rfl
          rw [hcond]
          simp only [Bool.false_eq_true, if_false]
          apply List.filter_congr
          intro g hg
          have hgf : g ≠ f := fun he => hf (he ▸ hg)
          rw [any_key_filter_ne m f g hgf]
        · rw [List.filter_filter]
          apply List.filter_congr
          intro p hp
          by_cases hpf : p.1 = f
          · have h1 : decide (p.1 ∈ f :: fs) = true := by
              simp [hpf]
            have h2 : pEndsWith p.1 rpmSuffix = true := by rw [hpf]; exact hr
            have h3 : (p.1 != f) = false := by simp [hpf]
            rw [h1, h2, h3]
            simp
          · have h1 : decide (p.1 ∈ f :: fs) = decide (p.1 ∈ fs) := by
              simp [List.mem_cons, hpf]
            have h3 : (p.1 != f) = true := by simp [hpf]
            rw [h1, h3, Bool.and_true]
      · simp only [mirrorSweep, hr, if_true, hm, Bool.false_eq_true, if_false]
        rw [ih _ hfs, Prod.mk.injEq]
        constructor
        · rw [List.filter_cons]
          have hcond : (pEndsWith f rpmSuffix && !(m.any (fun p => p.1 == f))) = true := by
            rw [hr]
            cases hany : m.any (fun p => p.1 == f)
            · rfl
            · exact absurd hany hm
          rw [hcond]
          simp
        · apply List.filter_congr
          intro p hp
          have hpf : p.1 ≠ f := by
            intro he
            exact hm (List.any_eq_true.mpr ⟨p, hp, by simp [he]⟩)
          have h1 : decide (p.1 ∈ f :: fs) = decide (p.1 ∈ fs) := by
            simp [List.mem_cons, hpf]
          rw [h1]
    · have hrf : pEndsWith f rpmSuffix = false := by
        cases hx : pEndsWith f rpmSuffix
        · rfl
        · exact absurd hx hr
      simp only [mirrorSweep, hrf, Bool.false_eq_true, if_false]
      rw [ih _ hfs, Prod.mk.injEq]
      constructor
      · rw [List.filter_cons]
        rw [show (pEndsWith f rpmSuffix && !(m.any (fun p => p.1 == f))) = false from by
          rw [hrf]; rfl]
        simp
      · apply List.filter_congr
        intro p hp
        by_cases hpf : p.1 = f
        · have h2 : pEndsWith p.1 rpmSuffix = false := by rw [hpf]; exact hrf
          rw [h2]
          simp
        · have h1 : decide (p.1 ∈ f :: fs) = decide (p.1 ∈ fs) := by
            simp [List.mem_cons, hpf]
          rw [h1]

/-- C6: when the remote listing carries binary name with checksum A and
the local cache holds the same name under a different checksum B, the
mirror pass deletes the stale B-file and queues the A-entry for download;
the stale name is gone from the resulting directory (assuming the server
returns the listed entries), never silently overwritten in place: the
two versions live under different file names. -/
theorem c6_stale_checksum_replaced (ignore : PStr → Bool) (server : PStr → PStr × PStr)
    (listing : List RemoteBinary) (localFiles : List PStr) (name A B : PStr)
    (hnd : localFiles.Nodup)
    (hname : pEndsWith name rpmSuffix = true)
    (hignore : ignore name = false)
    (hlisted : RemoteBinary.mk name A ∈ listing)
    (hBmem : (B ++ ('-' :: name)) ∈ localFiles)
    (hBnotkey : (B ++ ('-' :: name)) ∉ (buildRemotebins ignore listing).map Prod.fst)
    (hAnotlocal : (A ++ ('-' :: name)) ∉ localFiles)
    (hserver : ∀ q ∈ (mirrorStep ignore server listing localFiles).2.2,
      downloadName server q.2 = q.1) :
    ((B ++ ('-' :: name)) ∈ (mirrorStep ignore server listing localFiles).2.1) ∧
    ((A ++ ('-' :: name)) ∈ (mirrorStep ignore server listing localFiles).2.2.map Prod.fst) ∧
    ((B ++ ('-' :: name)) ∉ (mirrorStep ignore server listing localFiles).1) := by
  have hBrpm : pEndsWith (B ++ ('-' :: name)) rpmSuffix = true := by
    apply pEndsWith_append_left
    have : ('-' :: name) = ['-'] ++ name := rfl
    rw [this]
    exact pEndsWith_append_left _ _ _ hname
  have hguard : (pEndsWith name rpmSuffix && !ignore name) = true := by
    rw [hname, hignore]
    rfl
  have hsweep : (mirrorStep ignore server listing localFiles).2
      = mirrorSweep localFiles (buildRemotebins ignore listing) := rfl
  rw [mirrorSweep_eq localFiles (buildRemotebins ignore listing) hnd] at hsweep
  have hBany : ((buildRemotebins ignore listing).any
      (fun p => p.1 == (B ++ ('-' :: name)))) = false := by
    cases hx : (buildRemotebins ignore listing).any (fun p => p.1 == (B ++ ('-' :: name)))
    · rfl
    · exact absurd ((any_key_iff _ _).mp hx) hBnotkey
  have hdel : (B ++ ('-' :: name)) ∈ (mirrorStep ignore server listing localFiles).2.1 := by
    rw [hsweep]
    rw [List.mem_filter]
    refine ⟨hBmem, ?_⟩
    rw [hBrpm, hBany]
    rfl
  refine ⟨hdel, ?_, ?_⟩
  · have hAkey := buildRemotebins_mem_key ignore listing ⟨name, A⟩ hlisted hguard
    obtain ⟨q, hq, hq1⟩ := List.mem_map.mp hAkey
    rw [hsweep]
    refine List.mem_map.mpr ⟨q, ?_, hq1⟩
    rw [List.mem_filter]
    refine ⟨hq, ?_⟩
    have : decide (q.1 ∈ localFiles) = false := by
      rw [hq1]
      exact decide_eq_false hAnotlocal
    rw [this]
    rfl
  · intro hcon
    simp only [mirrorStep, List.mem_append] at hcon
    rcases hcon with hcon | hcon
    · rw [List.mem_filter] at hcon
      have := of_decide_eq_true hcon.2
      exact this hdel
    · obtain ⟨q, hq, hq1⟩ := List.mem_map.mp hcon
      rw [hserver q hq] at hq1
      apply hBnotkey
      have hqm : q ∈ buildRemotebins ignore listing := by
        rw [mirrorSweep_eq localFiles (buildRemotebins ignore listing) hnd] at hq
        exact (List.mem_filter.mp hq).1
      rw [← hq1]
      exact List.mem_map_of_mem _ hqm

/-- C6 witness: a concrete remote listing with checksum A for n.rpm and a
local cache holding the B-checksum file: the pass deletes the stale file,
downloads the new key, and the stale name is absent from the result. -/
theorem c6_stale_checksum_replaced_witness :
    (("B".toList ++ ('-' :: "n.rpm".toList)) ∈ (mirrorStep (fun _ => false)
      (fun nm => (nm, "A".toList)) [⟨"n.rpm".toList, "A".toList⟩]
      ["B-n.rpm".toList]).2.1) ∧
    (("A".toList ++ ('-' :: "n.rpm".toList)) ∈ (mirrorStep (fun _ => false)
      (fun nm => (nm, "A".toList)) [⟨"n.rpm".toList, "A".toList⟩]
      ["B-n.rpm".toList]).2.2.map Prod.fst) ∧
    (("B".toList ++ ('-' :: "n.rpm".toList)) ∉ (mirrorStep (fun _ => false)
      (fun nm => (nm, "A".toList)) [⟨"n.rpm".toList, "A".toList⟩]
      ["B-n.rpm".toList]).1) :=
  c6_stale_checksum_replaced (fun _ => false) (fun nm => (nm, "A".toList))
    [⟨"n.rpm".toList, "A".toList⟩] ["B-n.rpm".toList]
    "n.rpm".toList "A".toList "B".toList
    (by decide) (by decide) rfl (by decide) (by decide) (by decide) (by decide)
    (by decide)

/-- Removing one occurrence from a permutation of a duplicate-free list
leaves a permutation of the list without that element. -/
theorem perm_filter_ne_of_cons (f : PStr) (A keys : List PStr)
    (hkn : keys.Nodup) (hperm : (f :: A).Perm keys) :
    A.Perm (keys.filter (fun x => x != f)) := by
  have hconsnd : (f :: A).Nodup := hperm.nodup_iff.mpr hkn
  have hAnd : A.Nodup := (List.nodup_cons.mp hconsnd).2
  have hfA : f ∉ A := (List.nodup_cons.mp hconsnd).1
  apply (List.perm_ext_iff_of_nodup hAnd (hkn.filter _)).mpr
  intro x
  rw [List.mem_filter]
  constructor
  · intro hx
    refine ⟨hperm.mem_iff.mp (List.mem_cons_of_mem f hx), ?_⟩
    rw [bne_iff_ne]
    intro he
    subst he
    exact hfA hx
  · intro hx
    obtain ⟨hx1, hx2⟩ := hx
    rw [bne_iff_ne] at hx2
    rcases List.mem_cons.mp (hperm.mem_iff.mpr hx1) with rfl | hxa
    · exact absurd rfl hx2
    · exact hxa

/-- When the local .rpm files enumerate the remote keys exactly, the
sweep deletes nothing and leaves nothing to download. -/
theorem mirrorSweep_exhausts (l : List PStr) (m : List (PStr × PStr))
    (hkn : (m.map Prod.fst).Nodup)
    (hperm : (l.filter (fun f => pEndsWith f rpmSuffix)).Perm (m.map Prod.fst)) :
    mirrorSweep l m = ([], []) := by
  induction l generalizing m with
  | nil =>
    have h0 : (List.filter (fun f => pEndsWith f rpmSuffix) ([] : List PStr)) = [] := rfl
    rw [h0] at hperm
    have hm : m = [] := List.map_eq_nil_iff.mp hperm.symm.eq_nil
    subst hm
    rfl
  | cons f fs ih =>
    by_cases hr : pEndsWith f rpmSuffix = true
    · have h1 : (List.filter (fun f' => pEndsWith f' rpmSuffix) (f :: fs))
          = f :: fs.filter (fun f' => pEndsWith f' rpmSuffix) := by
        simp [List.filter_cons, hr]
      rw [h1] at hperm
      have hfk : f ∈ m.map Prod.fst := hperm.mem_iff.mp (List.mem_cons_self f _)
      have hperm' := perm_filter_ne_of_cons f
        (fs.filter (fun f' => pEndsWith f' rpmSuffix)) (m.map Prod.fst) hkn hperm
      have hany : (m.any (fun p => p.1 == f)) = true := (any_key_iff m f).mpr hfk
      simp only [mirrorSweep, hr, if_true, hany]
      apply ih
      · rw [map_fst_filter_comm (fun x => x != f) m]
        exact hkn.filter _
      · rw [map_fst_filter_comm (fun x => x != f) m]
        exact hperm'
    · have hrf : pEndsWith f rpmSuffix = false := by
        cases hx : pEndsWith f rpmSuffix
        · rfl
        · exact absurd hx hr
      have h1 : (List.filter (fun f' => pEndsWith f' rpmSuffix) (f :: fs))
          = fs.filter (fun f' => pEndsWith f' rpmSuffix) := by
        simp [List.filter_cons, hrf]
      rw [h1] at hperm
      simp only [mirrorSweep, hrf, Bool.false_eq_true, if_false]
      exact ih m hkn hperm


/-- The .rpm files of the directory a mirror pass leaves behind enumerate
the remote keys exactly, provided the server returned the listed
entries. -/
theorem mirrorStep_result_perm (ignore : PStr → Bool) (server : PStr → PStr × PStr)
    (listing : List RemoteBinary) (localFiles : List PStr)
    (hnd : localFiles.Nodup)
    (hserver : ∀ q ∈ (mirrorStep ignore server listing localFiles).2.2,
      downloadName server q.2 = q.1) :
    ((mirrorStep ignore server listing localFiles).1.filter
        (fun f => pEndsWith f rpmSuffix)).Perm
      ((buildRemotebins ignore listing).map Prod.fst) := by
  have hkn := buildRemotebins_keys_nodup ignore listing
  have hkr := buildRemotebins_keys_rpm ignore listing
  have hsw := mirrorSweep_eq localFiles (buildRemotebins ignore listing) hnd
  have hsw1 : (mirrorSweep localFiles (buildRemotebins ignore listing)).1
      = localFiles.filter (fun f => pEndsWith f rpmSuffix &&
          !((buildRemotebins ignore listing).any (fun p => p.1 == f))) := by
    rw [hsw]
  have hsw2 : (mirrorSweep localFiles (buildRemotebins ignore listing)).2
      = (buildRemotebins ignore listing).filter
          (fun p => !(decide (p.1 ∈ localFiles) && pEndsWith p.1 rpmSuffix)) := by
    rw [hsw]
  have hdir : (mirrorStep ignore server listing localFiles).1
      = localFiles.filter
          (fun f => decide (f ∉ (mirrorSweep localFiles (buildRemotebins ignore listing)).1)) ++
        ((mirrorSweep localFiles (buildRemotebins ignore listing)).2.map
          (fun q => downloadName server q.2)) := rfl
  have hserver2 : ∀ q ∈ (mirrorSweep localFiles (buildRemotebins ignore listing)).2,
      (fun q => downloadName server q.2) q = Prod.fst q := hserver
  have hpart2 : ((mirrorSweep localFiles (buildRemotebins ignore listing)).2.map
      (fun q => downloadName server q.2))
      = ((buildRemotebins ignore listing).map Prod.fst).filter
          (fun k => !(decide (k ∈ localFiles) && pEndsWith k rpmSuffix)) := by
    rw [List.map_congr_left hserver2, hsw2,
      map_fst_filter_comm (fun k => !(decide (k ∈ localFiles) && pEndsWith k rpmSuffix))]
  rw [hdir, List.filter_append, hpart2]
  have hpart2rpm : ((((buildRemotebins ignore listing).map Prod.fst).filter
      (fun k => !(decide (k ∈ localFiles) && pEndsWith k rpmSuffix))).filter
        (fun f => pEndsWith f rpmSuffix))
      = ((buildRemotebins ignore listing).map Prod.fst).filter
          (fun k => !(decide (k ∈ localFiles))) := by
    rw [List.filter_filter]
    apply List.filter_congr
    intro k hk
    rw [hkr k hk]
    simp
  rw [hpart2rpm]
  have hpart1 : ((localFiles.filter
      (fun f => decide (f ∉ (mirrorSweep localFiles (buildRemotebins ignore listing)).1))).filter
        (fun f => pEndsWith f rpmSuffix))
      = localFiles.filter (fun f => pEndsWith f rpmSuffix &&
          ((buildRemotebins ignore listing).any (fun p => p.1 == f))) := by
    rw [List.filter_filter]
    apply List.filter_congr
    intro f hf
    by_cases hr : pEndsWith f rpmSuffix = true
    · simp only [hr, Bool.true_and]
      by_cases hany : ((buildRemotebins ignore listing).any (fun p => p.1 == f)) = true
      · rw [hany]
        apply decide_eq_true
        rw [hsw1]
        intro hx
        have h2 := (List.mem_filter.mp hx).2
        rw [hr, hany] at h2
        simp at h2
      · have hany' : ((buildRemotebins ignore listing).any (fun p => p.1 == f)) = false := by
          cases hx : (buildRemotebins ignore listing).any (fun p => p.1 == f)
          · rfl
          · exact absurd hx hany
        rw [hany']
        have hmem : f ∈ (mirrorSweep localFiles (buildRemotebins ignore listing)).1 := by
          rw [hsw1, List.mem_filter]
          refine ⟨hf, ?_⟩
          rw [hr, hany']
          rfl
        apply decide_eq_false
        intro hcon
        exact hcon hmem
    · have hrf : pEndsWith f rpmSuffix = false := by
        cases hx : pEndsWith f rpmSuffix
        · rfl
        · exact absurd hx hr
      rw [hrf]
      rfl
  rw [hpart1]
  have hA : (localFiles.filter (fun f => pEndsWith f rpmSuffix &&
      ((buildRemotebins ignore listing).any (fun p => p.1 == f)))).Perm
      (((buildRemotebins ignore listing).map Prod.fst).filter
        (fun k => decide (k ∈ localFiles))) := by
    apply (List.perm_ext_iff_of_nodup (hnd.filter _) (hkn.filter _)).mpr
    intro x
    rw [List.mem_filter, List.mem_filter]
    constructor
    · intro hx
      obtain ⟨hx1, hx2⟩ := hx
      rw [Bool.and_eq_true] at hx2
      exact ⟨(any_key_iff _ _).mp hx2.2, decide_eq_true hx1⟩
    · intro hx
      obtain ⟨hx1, hx2⟩ := hx
      refine ⟨of_decide_eq_true hx2, ?_⟩
      rw [hkr x hx1, (any_key_iff _ _).mpr hx1]
      rfl
  have hB := List.filter_append_perm
    (fun k => decide (k ∈ localFiles)) ((buildRemotebins ignore listing).map Prod.fst)
  exact (hA.append (List.Perm.refl _)).trans hB

/-- C5: applying the mirror pass twice against an unchanged remote
listing performs zero deletions and zero downloads on the second pass,
and leaves the directory exactly as the first pass did. -/
theorem c5_second_mirror_idempotent (ignore : PStr → Bool) (server : PStr → PStr × PStr)
    (listing : List RemoteBinary) (localFiles : List PStr)
    (hnd : localFiles.Nodup)
    (hserver : ∀ q ∈ (mirrorStep ignore server listing localFiles).2.2,
      downloadName server q.2 = q.1) :
    (mirrorStep ignore server listing
        (mirrorStep ignore server listing localFiles).1).2.1 = [] ∧
    (mirrorStep ignore server listing
        (mirrorStep ignore server listing localFiles).1).2.2 = [] ∧
    (mirrorStep ignore server listing
        (mirrorStep ignore server listing localFiles).1).1
      = (mirrorStep ignore server listing localFiles).1 := by
  have hkn := buildRemotebins_keys_nodup ignore listing
  have hperm := mirrorStep_result_perm ignore server listing localFiles hnd hserver
  have hex := mirrorSweep_exhausts (mirrorStep ignore server listing localFiles).1
    (buildRemotebins ignore listing) hkn hperm
  have h21 : (mirrorStep ignore server listing
      (mirrorStep ignore server listing localFiles).1).2.1 = [] := by
    rw [show (mirrorStep ignore server listing
      (mirrorStep ignore server listing localFiles).1).2
        = mirrorSweep (mirrorStep ignore server listing localFiles).1
            (buildRemotebins ignore listing) from rfl, hex]
  have h22 : (mirrorStep ignore server listing
      (mirrorStep ignore server listing localFiles).1).2.2 = [] := by
    rw [show (mirrorStep ignore server listing
      (mirrorStep ignore server listing localFiles).1).2
        = mirrorSweep (mirrorStep ignore server listing localFiles).1
            (buildRemotebins ignore listing) from rfl, hex]
  refine ⟨h21, h22, ?_⟩
  have hdir : (mirrorStep ignore server listing
      (mirrorStep ignore server listing localFiles).1).1
      = (mirrorStep ignore server listing localFiles).1.filter
          (fun f => decide (f ∉ (mirrorSweep (mirrorStep ignore server listing localFiles).1
            (buildRemotebins ignore listing)).1)) ++
        ((mirrorSweep (mirrorStep ignore server listing localFiles).1
          (buildRemotebins ignore listing)).2.map (fun q => downloadName server q.2)) := rfl
  rw [hdir, hex]
  simp

/-- C5 witness: one concrete listing, a first pass that downloads the
single entry, and a second pass that deletes and downloads nothing and
leaves the directory unchanged. -/
theorem c5_second_mirror_idempotent_witness :
    (mirrorStep (fun _ => false) (fun nm => (nm, "aa".toList))
        [⟨"foo.rpm".toList, "aa".toList⟩]
        (mirrorStep (fun _ => false) (fun nm => (nm, "aa".toList))
          [⟨"foo.rpm".toList, "aa".toList⟩] [".lock".toList]).1).2.1 = [] ∧
    (mirrorStep (fun _ => false) (fun nm => (nm, "aa".toList))
        [⟨"foo.rpm".toList, "aa".toList⟩]
        (mirrorStep (fun _ => false) (fun nm => (nm, "aa".toList))
          [⟨"foo.rpm".toList, "aa".toList⟩] [".lock".toList]).1).2.2 = [] ∧
    (mirrorStep (fun _ => false) (fun nm => (nm, "aa".toList))
        [⟨"foo.rpm".toList, "aa".toList⟩]
        (mirrorStep (fun _ => false) (fun nm => (nm, "aa".toList))
          [⟨"foo.rpm".toList, "aa".toList⟩] [".lock".toList]).1).1
      = (mirrorStep (fun _ => false) (fun nm => (nm, "aa".toList))
          [⟨"foo.rpm".toList, "aa".toList⟩] [".lock".toList]).1 :=
  c5_second_mirror_idempotent (fun _ => false) (fun nm => (nm, "aa".toList))
    [⟨"foo.rpm".toList, "aa".toList⟩] [".lock".toList] (by decide) (by decide)

/-- A bdep step leaves the expanded set unchanged. -/
theorem stepBdep_expanded (env : Env) (arch : String) (s : ExpSt) (b : Bdep) :
    (stepBdep env arch s b).1.expanded = s.expanded := by
  have hg := (stepGpd_expanded_work env arch b s).1
  cases hl : b2pLookup (stepGpd env arch b s).g.bin2pkg (b.project, b.name) with
  | none =>
    simp only [stepBdep, hl]
    exact hg
  | some v =>
    simp only [stepBdep, hl]
    split
    · exact hg
    · split
      · exact hg
      · exact hg

/-- The bdep loop leaves the expanded set unchanged, also on the aborting
path. -/
theorem processBdeps_expanded (env : Env) (arch : String) (bs : List Bdep) (s : ExpSt) :
    (processBdeps env arch bs s).1.expanded = s.expanded := by
  induction bs generalizing s with
  | nil => rfl
  | cons b bs ih =>
    have hb := stepBdep_expanded env arch s b
    cases hsb : stepBdep env arch s b with
    | mk s1 e =>
      rw [hsb] at hb
      cases e
      · simp only [processBdeps, hsb]
        rw [ih s1]
        exact hb
      · simp only [processBdeps, hsb]
        exact hb

/-- A bdep step appends at most one target to the work list. -/
theorem stepBdep_work_cases (env : Env) (arch : String) (s : ExpSt) (b : Bdep) :
    (stepBdep env arch s b).1.work = s.work ∨
    ∃ t, (stepBdep env arch s b).1.work = s.work ++ [t] := by
  have hg := (stepGpd_expanded_work env arch b s).2
  cases hl : b2pLookup (stepGpd env arch b s).g.bin2pkg (b.project, b.name) with
  | none =>
    left
    simp only [stepBdep, hl]
    exact hg
  | some v =>
    simp only [stepBdep, hl]
    split
    · left
      exact hg
    · split
      · left
        exact hg
      · right
        refine ⟨(b.project, b.repository, v), ?_⟩
        rw [hg]

/-- The bdep loop grows the work list by at most one target per bdep. -/
theorem processBdeps_work_len (env : Env) (arch : String) (bs : List Bdep) (s : ExpSt) :
    (processBdeps env arch bs s).1.work.length ≤ s.work.length + bs.length := by
  induction bs generalizing s with
  | nil => simp [processBdeps]
  | cons b bs ih =>
    have hb := stepBdep_work_cases env arch s b
    cases hsb : stepBdep env arch s b with
    | mk s1 e =>
      rw [hsb] at hb
      have hlen : s1.work.length ≤ s.work.length + 1 := by
        rcases hb with hb | ⟨t, hb⟩
        · rw [hb]
          omega
        · rw [hb]
          simp
      cases e
      · simp only [processBdeps, hsb]
        have := ih s1
        simp only [List.length_cons]
        omega
      · simp only [processBdeps, hsb, List.length_cons]
        omega


/-- Totality of the worklist loop: an invariant that survives discarding
an already expanded target and expanding a fresh one, and that confines
the work and visited lists to the finite universe U, forces the loop to
its normal exit within the measure bound. -/
theorem expandLoop_total (env : Env) (arch : String) (pick : PickFn)
    (U : List PkgTarget) (B : Nat) (Inv : ExpSt → Prop)
    (hUB : ∀ t ∈ U, (env.buildenv t.1 t.2.1 arch t.2.2).length ≤ B)
    (hWU : ∀ s, Inv s → (∀ t ∈ s.work, t ∈ U) ∧ s.expanded.Nodup ∧
      (∀ t ∈ s.expanded, t ∈ U))
    (hdrop : ∀ s i t, Inv s → t ∈ s.expanded →
      (∀ x ∈ s.work, x = t ∨ x ∈ s.work.eraseIdx i) → Inv (popDrop s i))
    (hexp : ∀ s i t, Inv s → t ∈ s.work → t ∉ s.expanded →
      (∀ x ∈ s.work, x = t ∨ x ∈ s.work.eraseIdx i) →
      (processBdeps env arch (env.buildenv t.1 t.2.1 arch t.2.2) (popExpand s i t)).2 = none ∧
      Inv (processBdeps env arch (env.buildenv t.1 t.2.1 arch t.2.2) (popExpand s i t)).1) :
    ∀ fuel s, Inv s → loopMeasure U B s < fuel →
      ∃ s', expandLoop env arch pick fuel s = .ok s' ∧ Inv s' ∧ s'.work = [] := by
  intro fuel
  induction fuel with
  | zero =>
    intro s hInv hm
    exact absurd hm (Nat.not_lt_zero _)
  | succ n ih =>
    intro s hInv hm
    obtain ⟨E, W, P, G⟩ := s
    cases W with
    | nil =>
      exact ⟨⟨E, [], P, G⟩, by rfl, hInv, rfl⟩
    | cons w ws =>
      have hilt : pick (w :: ws) % (w :: ws).length < (w :: ws).length :=
        Nat.mod_lt _ (by simp)
      have hmem : (w :: ws).getD (pick (w :: ws) % (w :: ws).length) w ∈ (w :: ws) := by
        rw [List.getD_eq_getElem _ _ hilt]
        exact List.getElem_mem _
      have hsplit : ∀ x ∈ (w :: ws),
          x = (w :: ws).getD (pick (w :: ws) % (w :: ws).length) w ∨
          x ∈ (w :: ws).eraseIdx (pick (w :: ws) % (w :: ws).length) := by
        intro x hx
        by_cases hxt : x = (w :: ws).getD (pick (w :: ws) % (w :: ws).length) w
        · exact Or.inl hxt
        · right
          rw [List.eraseIdx_eq_take_drop_succ]
          have hdecomp : (w :: ws) = (w :: ws).take (pick (w :: ws) % (w :: ws).length) ++
              ((w :: ws)[pick (w :: ws) % (w :: ws).length] ::
                (w :: ws).drop (pick (w :: ws) % (w :: ws).length + 1)) := by
            conv_lhs => rw [← List.take_append_drop (pick (w :: ws) % (w :: ws).length) (w :: ws)]
            rw [List.drop_eq_getElem_cons hilt]
          rw [hdecomp] at hx
          rcases List.mem_append.mp hx with hx1 | hx2
          · exact List.mem_append.mpr (Or.inl hx1)
          · rcases List.mem_cons.mp hx2 with hx3 | hx4
            · exact absurd (hx3.trans (List.getD_eq_getElem _ _ hilt).symm) hxt
            · exact List.mem_append.mpr (Or.inr hx4)
      have hlenerase : ((w :: ws).eraseIdx (pick (w :: ws) % (w :: ws).length)).length
          = (w :: ws).length - 1 :=
        List.length_eraseIdx_of_lt hilt
      by_cases hin : (w :: ws).getD (pick (w :: ws) % (w :: ws).length) w ∈ E
      · have hInv1 : Inv (popDrop ⟨E, w :: ws, P, G⟩ (pick (w :: ws) % (w :: ws).length)) :=
          hdrop ⟨E, w :: ws, P, G⟩ (pick (w :: ws) % (w :: ws).length)
            ((w :: ws).getD (pick (w :: ws) % (w :: ws).length) w) hInv hin hsplit
        have hm1 : loopMeasure U B
            (popDrop ⟨E, w :: ws, P, G⟩ (pick (w :: ws) % (w :: ws).length)) < n := by
          simp only [loopMeasure, popDrop] at hm ⊢
          rw [hlenerase] at *
          simp only [List.length_cons] at *
          omega
        obtain ⟨s', hrun, hInv', hwe⟩ := ih _ hInv1 hm1
        refine ⟨s', ?_, hInv', hwe⟩
        simp only [expandLoop]
        rw [if_pos hin]
        exact hrun
      · obtain ⟨hnoerr, hInv3⟩ := hexp ⟨E, w :: ws, P, G⟩
          (pick (w :: ws) % (w :: ws).length)
          ((w :: ws).getD (pick (w :: ws) % (w :: ws).length) w) hInv hmem hin hsplit
        have hexpeq := processBdeps_expanded env arch
          (env.buildenv ((w :: ws).getD (pick (w :: ws) % (w :: ws).length) w).1
            ((w :: ws).getD (pick (w :: ws) % (w :: ws).length) w).2.1 arch
            ((w :: ws).getD (pick (w :: ws) % (w :: ws).length) w).2.2)
          (popExpand ⟨E, w :: ws, P, G⟩ (pick (w :: ws) % (w :: ws).length)
            ((w :: ws).getD (pick (w :: ws) % (w :: ws).length) w))
        have hlen3 := processBdeps_work_len env arch
          (env.buildenv ((w :: ws).getD (pick (w :: ws) % (w :: ws).length) w).1
            ((w :: ws).getD (pick (w :: ws) % (w :: ws).length) w).2.1 arch
            ((w :: ws).getD (pick (w :: ws) % (w :: ws).length) w).2.2)
          (popExpand ⟨E, w :: ws, P, G⟩ (pick (w :: ws) % (w :: ws).length)
            ((w :: ws).getD (pick (w :: ws) % (w :: ws).length) w))
        have htU : (w :: ws).getD (pick (w :: ws) % (w :: ws).length) w ∈ U :=
          (hWU ⟨E, w :: ws, P, G⟩ hInv).1 _ hmem
        have hblen := hUB _ htU
        have hm3 : loopMeasure U B (processBdeps env arch
            (env.buildenv ((w :: ws).getD (pick (w :: ws) % (w :: ws).length) w).1
              ((w :: ws).getD (pick (w :: ws) % (w :: ws).length) w).2.1 arch
              ((w :: ws).getD (pick (w :: ws) % (w :: ws).length) w).2.2)
            (popExpand ⟨E, w :: ws, P, G⟩ (pick (w :: ws) % (w :: ws).length)
              ((w :: ws).getD (pick (w :: ws) % (w :: ws).length) w))).1 < n := by
          simp only [loopMeasure] at hm ⊢
          rw [hexpeq]
          simp only [popExpand] at hlen3 ⊢
          rw [hlenerase] at hlen3
          have hcard : (U.toFinset \ ((w :: ws).getD (pick (w :: ws) % (w :: ws).length) w ::
              E).toFinset).card
              = (U.toFinset \ E.toFinset).card - 1 := by
            rw [List.toFinset_cons, Finset.sdiff_insert, Finset.card_erase_of_mem]
            rw [Finset.mem_sdiff, List.mem_toFinset, List.mem_toFinset]
            exact ⟨htU, hin⟩
          have hcardpos : 0 < (U.toFinset \ E.toFinset).card := by
            apply Finset.card_pos.mpr
            refine ⟨(w :: ws).getD (pick (w :: ws) % (w :: ws).length) w, ?_⟩
            rw [Finset.mem_sdiff, List.mem_toFinset, List.mem_toFinset]
            exact ⟨htU, hin⟩
          rw [hcard]
          have hmul : (U.toFinset \ E.toFinset).card * (B + 1)
              = ((U.toFinset \ E.toFinset).card - 1) * (B + 1) + (B + 1) := by
            have h1 : (U.toFinset \ E.toFinset).card
                = ((U.toFinset \ E.toFinset).card - 1) + 1 := by
              omega
            conv_lhs => rw [h1]
            rw [Nat.succ_mul]
          simp only [List.length_cons] at hm
          have hlc : (w :: ws).length = ws.length + 1 := rfl
          omega
        obtain ⟨s', hrun, hInv', hwe⟩ := ih _ hInv3 hm3
        refine ⟨s', ?_, hInv', hwe⟩
        simp only [expandLoop]
        rw [if_neg hin]
        cases hpb : processBdeps env arch
          (env.buildenv ((w :: ws).getD (pick (w :: ws) % (w :: ws).length) w).1
            ((w :: ws).getD (pick (w :: ws) % (w :: ws).length) w).2.1 arch
            ((w :: ws).getD (pick (w :: ws) % (w :: ws).length) w).2.2)
          (popExpand ⟨E, w :: ws, P, G⟩ (pick (w :: ws) % (w :: ws).length)
            ((w :: ws).getD (pick (w :: ws) % (w :: ws).length) w)) with
        | mk s3 e =>
          rw [hpb] at hnoerr hrun
          have he : e = none := hnoerr
          subst he
          exact hrun

/-- Membership in a fold of dict inserts comes from the inserted pairs or
the original dict. -/
theorem mem_foldl_insert {α : Type} (key : α → BinKey) (val : α → String)
    (l : List α) (m : Bin2Pkg) (kv : BinKey × String)
    (h : kv ∈ l.foldl (fun m' a => b2pInsert m' (key a) (val a)) m) :
    (∃ a ∈ l, kv = (key a, val a)) ∨ kv ∈ m := by
  induction l generalizing m with
  | nil => exact Or.inr h
  | cons a l ih =>
    rcases ih _ h with ⟨a', ha', he⟩ | hm
    · exact Or.inl ⟨a', List.mem_cons_of_mem _ ha', he⟩
    · rcases List.mem_cons.mp hm with he | hm'
      · exact Or.inl ⟨a, List.mem_cons_self _ _, he⟩
      · exact Or.inr hm'

/-- get_project_dependencies inserts only bindings obtainable from the
remote data. -/
theorem stepGpd_resolvable (env : Env) (arch : String) (b : Bdep) (s : ExpSt)
    (h : ∀ kv ∈ s.g.bin2pkg, ResolvableAny env arch kv.1 kv.2) :
    ∀ kv ∈ (stepGpd env arch b s).g.bin2pkg, ResolvableAny env arch kv.1 kv.2 := by
  by_cases h1 : b.project ∈ s.projDeps
  · simp only [stepGpd, h1, if_true]
    exact h
  · by_cases h2 : (b.project, b.repository, arch) ∈ s.g.gpdDone
    · simp only [stepGpd, h1, if_false, h2, if_true]
      exact h
    · simp only [stepGpd, h1, if_false, h2]
      intro kv hkv
      rcases mem_foldl_insert (fun pr : String × String => (b.project, pr.1))
        (fun pr : String × String => pr.2) _ _ _ hkv with ⟨a, ha, he⟩ | hm
      · subst he
        left
        exact ⟨b.repository, by simpa using ha⟩
      · exact h kv hm

/-- Header indexing inserts only bindings obtainable from the mirrored
files, also on the aborting path. -/
theorem indexHeaders_resolvable (env : Env) (arch : String) (p r : String)
    (fs : List MirFile) (m : Bin2Pkg)
    (hfs : ∀ f ∈ fs, f ∈ env.mirrorFiles p r "x86_64")
    (h : ∀ kv ∈ m, ResolvableAny env arch kv.1 kv.2) :
    ∀ kv ∈ (indexHeaders p fs m).1, ResolvableAny env arch kv.1 kv.2 := by
  induction fs generalizing m with
  | nil => exact h
  | cons f fs ih =>
    by_cases hc : pyContains f.fname '-' = true
    · cases hh : f.hdr with
      | none =>
        simp only [indexHeaders, hc, if_true, hh]
        exact h
      | some hd =>
        simp only [indexHeaders, hc, if_true, hh]
        refine ih _ (fun f' hf' => hfs f' (List.mem_cons_of_mem _ hf')) ?_
        intro kv hkv
        rcases List.mem_cons.mp hkv with rfl | hkv'
        · right
          exact ⟨p, r, f, hd, hfs f (List.mem_cons_self _ _), hh, rfl, rfl, Or.inr rfl⟩
        · rcases List.mem_cons.mp hkv' with rfl | hkv''
          · right
            exact ⟨p, r, f, hd, hfs f (List.mem_cons_self _ _), hh, rfl, rfl, Or.inl rfl⟩
          · exact h kv hkv''
    · simp only [indexHeaders, hc, if_false]
      exact ih m (fun f' hf' => hfs f' (List.mem_cons_of_mem _ hf')) h

/-- mirror_repository inserts only bindings obtainable from the mirrored
files. -/
theorem stepMirror_resolvable (env : Env) (arch : String) (p r : String) (g : Global)
    (h : ∀ kv ∈ g.bin2pkg, ResolvableAny env arch kv.1 kv.2) :
    ∀ kv ∈ (stepMirror env p r g).1.bin2pkg, ResolvableAny env arch kv.1 kv.2 := by
  unfold stepMirror
  by_cases hm : (p, r) ∈ g.mirrorDone
  · simp only [hm, if_true]
    exact h
  · simp only [hm, if_false]
    have hidx := indexHeaders_resolvable env arch p r (env.mirrorFiles p r "x86_64")
      g.bin2pkg (fun f hf => hf) h
    cases he : indexHeaders p (env.mirrorFiles p r "x86_64") g.bin2pkg with
    | mk m1 e =>
      rw [he] at hidx
      cases e
      · simpa using hidx
      · simpa using hidx

/-- A successful lookup of a cache of obtainable bindings yields an
obtainable binding. -/
theorem b2pLookup_resolvable (env : Env) (arch : String) (m : Bin2Pkg)
    (k : BinKey) (v : String)
    (h : ∀ kv ∈ m, ResolvableAny env arch kv.1 kv.2)
    (hl : b2pLookup m k = some v) : ResolvableAny env arch k v := by
  unfold b2pLookup at hl
  cases hf : m.find? (fun p => p.1 == k) with
  | none =>
    rw [hf] at hl
    cases hl
  | some q =>
    rw [hf] at hl
    have hl2 : q.2 = v := by
      injection hl
    have hqm := List.mem_of_find?_eq_some hf
    have hqk := List.find?_some hf
    have hq1 : q.1 = k := by simpa using hqk
    have hx := h q hqm
    rw [hq1, hl2] at hx
    exact hx

/-- Header indexing of readable files raises no exception. -/
theorem indexHeaders_noerr (p : String) (fs : List MirFile) (m : Bin2Pkg)
    (hfs : ∀ f ∈ fs, pyContains f.fname '-' = true → (f.hdr).isSome = true) :
    (indexHeaders p fs m).2 = none := by
  induction fs generalizing m with
  | nil => rfl
  | cons f fs ih =>
    by_cases hc : pyContains f.fname '-' = true
    · obtain ⟨hd, hh⟩ := Option.isSome_iff_exists.mp (hfs f (List.mem_cons_self _ _) hc)
      simp only [indexHeaders, hc, if_true, hh]
      exact ih _ (fun f' hf' => hfs f' (List.mem_cons_of_mem _ hf'))
    · simp only [indexHeaders, hc, if_false]
      exact ih m (fun f' hf' => hfs f' (List.mem_cons_of_mem _ hf'))

/-- mirror_repository raises no exception over a good environment. -/
theorem stepMirror_noerr (env : Env) (p r : String) (g : Global)
    (hgood : GoodEnv env) : (stepMirror env p r g).2 = none := by
  unfold stepMirror
  by_cases hm : (p, r) ∈ g.mirrorDone
  · rw [if_pos hm]
  · simp only [hm, if_false]
    have hidx := indexHeaders_noerr p (env.mirrorFiles p r "x86_64") g.bin2pkg
      (fun f hf => hgood p r f hf)
    cases he : indexHeaders p (env.mirrorFiles p r "x86_64") g.bin2pkg with
    | mk m1 e =>
      rw [he] at hidx
      cases e
      · rfl
      · cases hidx

/-- A bdep step raises no exception over a good environment. -/
theorem stepBdep_noerr (env : Env) (arch : String) (s : ExpSt) (b : Bdep)
    (hgood : GoodEnv env) : (stepBdep env arch s b).2 = none := by
  cases hl : b2pLookup (stepGpd env arch b s).g.bin2pkg (b.project, b.name) with
  | none =>
    simp only [stepBdep, hl]
    exact stepMirror_noerr env b.project b.repository _ hgood
  | some v =>
    simp only [stepBdep, hl]
    split
    · rfl
    · split
      · rfl
      · rfl

/-- The bdep loop raises no exception over a good environment. -/
theorem processBdeps_noerr (env : Env) (arch : String) (bs : List Bdep) (s : ExpSt)
    (hgood : GoodEnv env) : (processBdeps env arch bs s).2 = none := by
  induction bs generalizing s with
  | nil => rfl
  | cons b bs ih =>
    have hb := stepBdep_noerr env arch s b hgood
    cases hsb : stepBdep env arch s b with
    | mk s1 e =>
      rw [hsb] at hb
      have he : e = none := hb
      subst he
      simp only [processBdeps, hsb]
      exact ih s1

/-- Any target a bdep step adds to the work list was resolved from the
cache state after loading the project's dependency info. -/
theorem stepBdep_work_mem (env : Env) (arch : String) (s : ExpSt) (b : Bdep)
    (x : PkgTarget) (hx : x ∈ (stepBdep env arch s b).1.work) :
    x ∈ s.work ∨
    ∃ v, b2pLookup (stepGpd env arch b s).g.bin2pkg (b.project, b.name) = some v ∧
      x = (b.project, b.repository, v) := by
  have hg := (stepGpd_expanded_work env arch b s).2
  cases hl : b2pLookup (stepGpd env arch b s).g.bin2pkg (b.project, b.name) with
  | none =>
    simp only [stepBdep, hl] at hx
    rw [hg] at hx
    exact Or.inl hx
  | some v =>
    simp only [stepBdep, hl] at hx
    split at hx
    · rw [hg] at hx
      exact Or.inl hx
    · split at hx
      · rw [hg] at hx
        exact Or.inl hx
      · simp only [hg] at hx
        rcases List.mem_append.mp hx with hx1 | hx2
        · exact Or.inl hx1
        · rcases List.mem_singleton.mp hx2 with rfl
          exact Or.inr ⟨v, rfl, rfl⟩

/-- One bdep step of the expansion of a reached target t preserves the
soundness invariant. -/
theorem stepBdep_inv_sound (env : Env) (arch : String) (start : PkgTarget)
    (U : List PkgTarget) (B : Nat)
    (hcl : ClosedUniverse env arch U B) (t : PkgTarget) (htU : t ∈ U)
    (hreacht : ReachFull env arch start t)
    (s : ExpSt) (b : Bdep)
    (hb : b ∈ env.buildenv t.1 t.2.1 arch t.2.2)
    (hInv : InvSound env arch start U s) :
    InvSound env arch start U (stepBdep env arch s b).1 := by
  obtain ⟨h1, h2, h3, h4, h5, h6, h7⟩ := hInv
  have hexp := stepBdep_expanded env arch s b
  have hres7 : ∀ kv ∈ (stepBdep env arch s b).1.g.bin2pkg,
      ResolvableAny env arch kv.1 kv.2 := by
    have hg := stepGpd_resolvable env arch b s h7
    cases hl : b2pLookup (stepGpd env arch b s).g.bin2pkg (b.project, b.name) with
    | none =>
      simp only [stepBdep, hl]
      exact stepMirror_resolvable env arch b.project b.repository _ hg
    | some v =>
      simp only [stepBdep, hl]
      split
      · exact hg
      · split
        · exact hg
        · exact hg
  have hnew : ∀ x ∈ (stepBdep env arch s b).1.work, x ∈ U ∧ ReachFull env arch start x := by
    intro x hx
    rcases stepBdep_work_mem env arch s b x hx with hx1 | ⟨v, hv, rfl⟩
    · exact ⟨h3 x hx1, h5 x hx1⟩
    · have hres := b2pLookup_resolvable env arch _ _ _
        (stepGpd_resolvable env arch b s h7) hv
      refine ⟨hcl.1 t htU b hb v hres, ?_⟩
      exact ReachFull.step hreacht hb hres
  have hwork6 : start ∈ (stepBdep env arch s b).1.expanded ∨
      start ∈ (stepBdep env arch s b).1.work := by
    rw [hexp]
    rcases h6 with h6 | h6
    · exact Or.inl h6
    · right
      rcases stepBdep_work_cases env arch s b with hw | ⟨u, hw⟩
      · rw [hw]
        exact h6
      · rw [hw]
        exact List.mem_append.mpr (Or.inl h6)
  refine ⟨?_, ?_, ?_, ?_, ?_, hwork6, hres7⟩
  · rw [hexp]
    exact h1
  · rw [hexp]
    exact h2
  · intro x hx
    exact (hnew x hx).1
  · rw [hexp]
    exact h4
  · intro x hx
    exact (hnew x hx).2

/-- The bdep loop of the expansion of a reached target preserves the
soundness invariant. -/
theorem processBdeps_inv_sound (env : Env) (arch : String) (start : PkgTarget)
    (U : List PkgTarget) (B : Nat)
    (hcl : ClosedUniverse env arch U B) (t : PkgTarget) (htU : t ∈ U)
    (hreacht : ReachFull env arch start t)
    (bs : List Bdep) (s : ExpSt)
    (hbs : ∀ b ∈ bs, b ∈ env.buildenv t.1 t.2.1 arch t.2.2)
    (hInv : InvSound env arch start U s) :
    InvSound env arch start U (processBdeps env arch bs s).1 := by
  induction bs generalizing s with
  | nil => exact hInv
  | cons b bs ih =>
    have hstep := stepBdep_inv_sound env arch start U B hcl t htU hreacht s b
      (hbs b (List.mem_cons_self _ _)) hInv
    cases hsb : stepBdep env arch s b with
    | mk s1 e =>
      rw [hsb] at hstep
      cases e
      · simp only [processBdeps, hsb]
        exact ih s1 (fun b' hb' => hbs b' (List.mem_cons_of_mem _ hb')) hstep
      · simp only [processBdeps, hsb]
        exact hstep

/-- C1 (amended): over any finite closed universe of targets — any
finite dependency graph, cycles included — and a readable environment,
the worklist loop of expand_proj_deps started cold terminates normally
within the measure bound for every pop order, and the returned visited
set has no duplicates, contains the start, and contains only targets
reachable from the start via the edge-resolution relation. (Exactness
fails: a reachable target whose edge resolves only through the mirror
triggered by its own first miss can be missing, see the
counterexample.) -/
theorem c1_closure_terminates_sound (env : Env) (arch : String) (pick : PickFn)
    (start : PkgTarget) (U : List PkgTarget) (B fuel : Nat)
    (hgood : GoodEnv env) (hstart : start ∈ U)
    (hcl : ClosedUniverse env arch U B)
    (hfuel : loopMeasure U B ⟨[], [start], [], Global.empty⟩ < fuel) :
    ∃ s, expandLoop env arch pick fuel ⟨[], [start], [], Global.empty⟩ = .ok s ∧
      s.expanded.Nodup ∧ start ∈ s.expanded ∧
      ∀ t ∈ s.expanded, ReachFull env arch start t := by
  have htotal := expandLoop_total env arch pick U B (InvSound env arch start U)
    hcl.2
    (fun s hs => ⟨hs.2.2.1, hs.1, hs.2.1⟩)
    (by
      intro s i t hs ht hsplit
      obtain ⟨h1, h2, h3, h4, h5, h6, h7⟩ := hs
      refine ⟨h1, h2, ?_, h4, ?_, ?_, h7⟩
      · intro x hx
        exact h3 x (List.mem_of_mem_eraseIdx hx)
      · intro x hx
        exact h5 x (List.mem_of_mem_eraseIdx hx)
      · rcases h6 with h6 | h6
        · exact Or.inl h6
        · rcases hsplit start h6 with rfl | h6'
          · exact Or.inl ht
          · exact Or.inr h6')
    (by
      intro s i t hs htw hte hsplit
      have htU : t ∈ U := hs.2.2.1 t htw
      have hreacht : ReachFull env arch start t := hs.2.2.2.2.1 t htw
      have hpop : InvSound env arch start U (popExpand s i t) := by
        obtain ⟨h1, h2, h3, h4, h5, h6, h7⟩ := hs
        refine ⟨?_, ?_, ?_, ?_, ?_, ?_, h7⟩
        · exact List.nodup_cons.mpr ⟨hte, h1⟩
        · intro x hx
          rcases List.mem_cons.mp hx with rfl | hx'
          · exact htU
          · exact h2 x hx'
        · intro x hx
          exact h3 x (List.mem_of_mem_eraseIdx hx)
        · intro x hx
          rcases List.mem_cons.mp hx with rfl | hx'
          · exact hreacht
          · exact h4 x hx'
        · intro x hx
          exact h5 x (List.mem_of_mem_eraseIdx hx)
        · rcases h6 with h6 | h6
          · exact Or.inl (List.mem_cons_of_mem _ h6)
          · rcases hsplit start h6 with rfl | h6'
            · exact Or.inl (List.mem_cons_self _ _)
            · exact Or.inr h6'
      refine ⟨processBdeps_noerr env arch _ _ hgood, ?_⟩
      exact processBdeps_inv_sound env arch start U B hcl t htU hreacht _ _
        (fun b hb => hb) hpop)
  have hinit : InvSound env arch start U ⟨[], [start], [], Global.empty⟩ := by
    refine ⟨List.nodup_nil, ?_, ?_, ?_, ?_, Or.inr (List.mem_singleton.mpr rfl), ?_⟩
    · intro t ht
      cases ht
    · intro t ht
      rcases List.mem_singleton.mp ht with rfl
      exact hstart
    · intro t ht
      cases ht
    · intro t ht
      rcases List.mem_singleton.mp ht with rfl
      exact ReachFull.base
    · intro kv hkv
      cases hkv
  obtain ⟨s, hrun, hInv, hwe⟩ := htotal fuel _ hinit hfuel
  refine ⟨s, hrun, hInv.1, ?_, hInv.2.2.2.1⟩
  rcases hInv.2.2.2.2.2.1 with h | h
  · exact h
  · rw [hwe] at h
    cases h

/-- C1 witness: over the concrete environment envA, the universe of its
two targets and build environments of length at most one, the cold run
terminates normally with a duplicate-free visited set containing the
start, every element of which is reachable. -/
theorem c1_closure_terminates_sound_witness :
    ∃ s, expandLoop envA "a" pick0 20 ⟨[], [("p", "r", "s")], [], Global.empty⟩ = .ok s ∧
      s.expanded.Nodup ∧ ("p", "r", "s") ∈ s.expanded ∧
      ∀ t ∈ s.expanded, ReachFull envA "a" ("p", "r", "s") t := by
  apply c1_closure_terminates_sound envA "a" pick0 ("p", "r", "s")
    [("p", "r", "s"), ("p", "r", "xsrc")] 1 20
  · intro p r f hf hc
    simp only [envA] at hf
    split at hf
    · rcases List.mem_singleton.mp hf with rfl
      rfl
    · cases hf
  · decide
  · constructor
    · intro t ht b hb v hres
      rcases List.mem_cons.mp ht with rfl | ht'
      · rw [show envA.buildenv "p" "r" "a" "s" = [⟨"p", "r", "x"⟩] from by decide] at hb
        rcases List.mem_singleton.mp hb with rfl
        rcases hres with ⟨r', hmem⟩ | ⟨p', r', f, hd, hf, hhdr, hname, hpkg, hor⟩
        · rw [show envA.builddepinfo "p" r' "a" = [] from rfl] at hmem
          cases hmem
        · simp only [envA] at hf
          split at hf
          · rcases List.mem_singleton.mp hf with rfl
            have hhd : (⟨"x", "p", "xsrc"⟩ : RpmHdr) = hd := by
              injection hhdr
            subst hhd
            have hv : v = "xsrc" := hpkg.symm
            subst hv
            decide
          · cases hf
      · rcases List.mem_cons.mp ht' with rfl | ht''
        · rw [show envA.buildenv "p" "r" "a" "xsrc" = [] from by decide] at hb
          cases hb
        · cases ht''
    · decide
  · decide

/-- Looking up the key just assigned yields its value. -/
theorem b2pLookup_cons_self (k : BinKey) (v : String) (m : Bin2Pkg) :
    b2pLookup ((k, v) :: m) k = some v := by
  unfold b2pLookup
  rw [show List.find? (fun p => p.1 == k) ((k, v) :: m) = some (k, v) from by
    simp [List.find?_cons]]
  rfl

/-- Looking up a different key skips an assignment. -/
theorem b2pLookup_cons_ne (x : BinKey × String) (m : Bin2Pkg) (k : BinKey)
    (h : x.1 ≠ k) : b2pLookup (x :: m) k = b2pLookup m k := by
  unfold b2pLookup
  rw [show List.find? (fun p => p.1 == k) (x :: m) = List.find? (fun p => p.1 == k) m from by
    simp [List.find?_cons, h]]

/-- Loading a project's dependency info does not touch the keys of other
projects. -/
theorem b2pLookup_foldl_insert_ne (P : String) (l : List (String × String))
    (m : Bin2Pkg) (P' n : String) (h : P' ≠ P) :
    b2pLookup (l.foldl (fun m' pr => b2pInsert m' (P, pr.1) pr.2) m) (P', n)
      = b2pLookup m (P', n) := by
  induction l generalizing m with
  | nil => rfl
  | cons pr l ih =>
    rw [List.foldl_cons, ih]
    exact b2pLookup_cons_ne _ _ _ (by simp [Ne.symm h])

/-- Loading a project's dependency info resolves its own keys to the
last matching pair, falling back to the previous cache. -/
theorem b2pLookup_foldl_insert_self (P : String) (l : List (String × String))
    (m : Bin2Pkg) (n : String) :
    b2pLookup (l.foldl (fun m' pr => b2pInsert m' (P, pr.1) pr.2) m) (P, n)
      = match l.reverse.find? (fun pr => pr.1 == n) with
        | some q => some q.2
        | none => b2pLookup m (P, n) := by
  induction l generalizing m with
  | nil => rfl
  | cons pr l ih =>
    rw [List.foldl_cons, ih, List.reverse_cons, List.find?_append]
    cases hf : l.reverse.find? (fun pr' => pr'.1 == n) with
    | some q => rfl
    | none =>
      by_cases hn : pr.1 = n
      · rw [show List.find? (fun pr' => pr'.1 == n) [pr] = some pr from by
          simp [List.find?_cons, hn]]
        subst hn
        exact b2pLookup_cons_self _ _ _
      · rw [show List.find? (fun pr' => pr'.1 == n) [pr] = none from by
          simp [List.find?_cons, hn]]
        exact b2pLookup_cons_ne _ _ _ (by simp [hn])

/-- Loading dependency info keeps the global state clean, marks the
project loaded, and keeps project_deps inside the loaded projects. -/
theorem stepGpd_clean (env : Env) (arch : String) (b : Bdep) (s : ExpSt)
    (huni : RepoUniform env arch)
    (hc : CleanG env arch s.g)
    (hsub : ∀ P ∈ s.projDeps, P ∈ loadedProjs s.g) :
    CleanG env arch (stepGpd env arch b s).g ∧
    b.project ∈ loadedProjs (stepGpd env arch b s).g ∧
    (∀ P ∈ (stepGpd env arch b s).projDeps, P ∈ loadedProjs (stepGpd env arch b s).g) := by
  by_cases h1 : b.project ∈ s.projDeps
  · simp only [stepGpd, h1, if_true]
    exact ⟨hc, hsub _ h1, hsub⟩
  · by_cases h2 : (b.project, b.repository, arch) ∈ s.g.gpdDone
    · simp only [stepGpd, h1, if_false, h2, if_true]
      have hP : b.project ∈ loadedProjs s.g :=
        List.mem_map.mpr ⟨(b.project, b.repository, arch), h2, rfl⟩
      refine ⟨hc, hP, ?_⟩
      intro P hP'
      rcases List.mem_cons.mp hP' with rfl | h
      · exact hP
      · exact hsub P h
    · simp only [stepGpd, h1, if_false, h2, if_false]
      have hload : loadedProjs ⟨(env.builddepinfo b.project b.repository arch).foldl
          (fun m pr => b2pInsert m (b.project, pr.1) pr.2) s.g.bin2pkg,
          (b.project, b.repository, arch) :: s.g.gpdDone, s.g.mirrorDone⟩
          = b.project :: loadedProjs s.g := rfl
      have hclean : CleanG env arch ⟨(env.builddepinfo b.project b.repository arch).foldl
          (fun m pr => b2pInsert m (b.project, pr.1) pr.2) s.g.bin2pkg,
          (b.project, b.repository, arch) :: s.g.gpdDone, s.g.mirrorDone⟩ := by
        intro P' n
        by_cases hPP : P' = b.project
        · subst hPP
          have hself := b2pLookup_foldl_insert_self b.project
            (env.builddepinfo b.project b.repository arch) s.g.bin2pkg n
          rw [show (⟨(env.builddepinfo b.project b.repository arch).foldl
              (fun m pr => b2pInsert m (b.project, pr.1) pr.2) s.g.bin2pkg,
              (b.project, b.repository, arch) :: s.g.gpdDone, s.g.mirrorDone⟩ : Global).bin2pkg
            = (env.builddepinfo b.project b.repository arch).foldl
              (fun m pr => b2pInsert m (b.project, pr.1) pr.2) s.g.bin2pkg from rfl]
          rw [hself, hload]
          rw [if_pos (List.mem_cons_self _ _)]
          rw [huni b.project b.repository ""]
          unfold t1look
          cases hf : (env.builddepinfo b.project "" arch).reverse.find? (fun pr => pr.1 == n) with
          | some q => rfl
          | none =>
            show b2pLookup s.g.bin2pkg (b.project, n) = none
            rw [hc b.project n]
            have ht1 : t1look env arch b.project n = none := by
              unfold t1look
              rw [hf]
              rfl
            rw [ht1]
            split
            · rfl
            · rfl
        · have hne := b2pLookup_foldl_insert_ne b.project
            (env.builddepinfo b.project b.repository arch) s.g.bin2pkg P' n hPP
          rw [show (⟨(env.builddepinfo b.project b.repository arch).foldl
              (fun m pr => b2pInsert m (b.project, pr.1) pr.2) s.g.bin2pkg,
              (b.project, b.repository, arch) :: s.g.gpdDone, s.g.mirrorDone⟩ : Global).bin2pkg
            = (env.builddepinfo b.project b.repository arch).foldl
              (fun m pr => b2pInsert m (b.project, pr.1) pr.2) s.g.bin2pkg from rfl]
          rw [hne, hc P' n, hload]
          by_cases hin : P' ∈ loadedProjs s.g
          · rw [if_pos hin, if_pos (List.mem_cons_of_mem _ hin)]
          · rw [if_neg hin, if_neg (by
              intro hcon
              rcases List.mem_cons.mp hcon with h | h
              · exact hPP h
              · exact hin h)]
      refine ⟨hclean, ?_, ?_⟩
      · rw [hload]
        exact List.mem_cons_self _ _
      · intro P hP'
        rcases List.mem_cons.mp hP' with rfl | h
        · rw [hload]
          exact List.mem_cons_self _ _
        · rw [hload]
          exact List.mem_cons_of_mem _ (hsub P h)

/-- One bdep step under a clean global state and a tier-1 environment:
no exception, the state stays clean, expanded is unchanged, the work list
grows monotonically inside the universe, and the tier-1 resolution of the
bdep is covered by expanded or work afterwards. -/
theorem stepBdep_inv_t1 (env : Env) (arch : String) (start : PkgTarget)
    (U : List PkgTarget) (B : Nat)
    (huni : RepoUniform env arch) (hT1 : T1Closed env arch U B)
    (t : PkgTarget) (htU : t ∈ U) (hreacht : ReachT1 env arch start t)
    (s : ExpSt) (b : Bdep) (hb : b ∈ env.buildenv t.1 t.2.1 arch t.2.2)
    (hc : CleanG env arch s.g) (hsub : ∀ P ∈ s.projDeps, P ∈ loadedProjs s.g)
    (hwU : ∀ x ∈ s.work, x ∈ U)
    (hwR : ∀ x ∈ s.work, ReachT1 env arch start x) :
    (stepBdep env arch s b).2 = none ∧
    CleanG env arch (stepBdep env arch s b).1.g ∧
    (∀ P ∈ (stepBdep env arch s b).1.projDeps,
      P ∈ loadedProjs (stepBdep env arch s b).1.g) ∧
    (stepBdep env arch s b).1.expanded = s.expanded ∧
    (∀ x ∈ s.work, x ∈ (stepBdep env arch s b).1.work) ∧
    (∀ x ∈ (stepBdep env arch s b).1.work, x ∈ U) ∧
    (∀ x ∈ (stepBdep env arch s b).1.work, ReachT1 env arch start x) ∧
    (∀ v, t1look env arch b.project b.name = some v →
      (b.project, b.repository, v) ∈ s.expanded ∨
      (b.project, b.repository, v) ∈ (stepBdep env arch s b).1.work) := by
  obtain ⟨hc1, hP, hsub1⟩ := stepGpd_clean env arch b s huni hc hsub
  obtain ⟨v0, hv0⟩ := hT1.1 t htU b hb
  obtain ⟨hge, hgw⟩ := stepGpd_expanded_work env arch b s
  have hl : b2pLookup (stepGpd env arch b s).g.bin2pkg (b.project, b.name) = some v0 := by
    rw [hc1 b.project b.name, if_pos hP, hv0]
  have htiU : (b.project, b.repository, v0) ∈ U := hT1.2.1 t htU b hb v0 hv0
  have htiR : ReachT1 env arch start (b.project, b.repository, v0) :=
    ReachT1.step hreacht hb hv0
  have hcov : ∀ v, t1look env arch b.project b.name = some v → v = v0 := by
    intro v hv
    rw [hv0] at hv
    injection hv with h
    exact h.symm
  by_cases hie : (b.project, b.repository, v0) ∈ (stepGpd env arch b s).expanded
  · have hout : stepBdep env arch s b = (stepGpd env arch b s, none) := by
      simp only [stepBdep, hl]
      rw [if_pos hie]
    rw [hout]
    refine ⟨rfl, hc1, hsub1, hge, ?_, ?_, ?_, ?_⟩
    · intro x hx
      rw [hgw]
      exact hx
    · intro x hx
      rw [hgw] at hx
      exact hwU x hx
    · intro x hx
      rw [hgw] at hx
      exact hwR x hx
    · intro v hv
      rcases hcov v hv with rfl
      left
      rw [← hge]
      exact hie
  · by_cases hiw : (b.project, b.repository, v0) ∈ (stepGpd env arch b s).work
    · have hout : stepBdep env arch s b = (stepGpd env arch b s, none) := by
        simp only [stepBdep, hl]
        rw [if_neg hie, if_pos hiw]
      rw [hout]
      refine ⟨rfl, hc1, hsub1, hge, ?_, ?_, ?_, ?_⟩
      · intro x hx
        rw [hgw]
        exact hx
      · intro x hx
        rw [hgw] at hx
        exact hwU x hx
      · intro x hx
        rw [hgw] at hx
        exact hwR x hx
      · intro v hv
        rcases hcov v hv with rfl
        right
        exact hiw
    · have hout : stepBdep env arch s b =
          ({ stepGpd env arch b s with
              work := (stepGpd env arch b s).work ++ [(b.project, b.repository, v0)] },
            none) := by
        simp only [stepBdep, hl]
        rw [if_neg hie, if_neg hiw]
      rw [hout]
      refine ⟨rfl, hc1, hsub1, hge, ?_, ?_, ?_, ?_⟩
      · intro x hx
        rw [hgw]
        exact List.mem_append.mpr (Or.inl hx)
      · intro x hx
        rcases List.mem_append.mp hx with hx1 | hx2
        · rw [hgw] at hx1
          exact hwU x hx1
        · rcases List.mem_singleton.mp hx2 with rfl
          exact htiU
      · intro x hx
        rcases List.mem_append.mp hx with hx1 | hx2
        · rw [hgw] at hx1
          exact hwR x hx1
        · rcases List.mem_singleton.mp hx2 with rfl
          exact htiR
      · intro v hv
        rcases hcov v hv with rfl
        right
        exact List.mem_append.mpr (Or.inr (List.mem_singleton.mpr rfl))

/-- The bdep loop of the expansion of a reached target under a clean
global state and a tier-1 environment: no exception, the state stays
clean, expanded is unchanged, the work list grows monotonically inside
the universe, and every bdep of the list has its tier-1 resolution
covered by expanded or work afterwards. -/
theorem processBdeps_inv_t1 (env : Env) (arch : String) (start : PkgTarget)
    (U : List PkgTarget) (B : Nat)
    (huni : RepoUniform env arch) (hT1 : T1Closed env arch U B)
    (t : PkgTarget) (htU : t ∈ U) (hreacht : ReachT1 env arch start t)
    (bs : List Bdep) (s : ExpSt)
    (hbs : ∀ b ∈ bs, b ∈ env.buildenv t.1 t.2.1 arch t.2.2)
    (hc : CleanG env arch s.g) (hsub : ∀ P ∈ s.projDeps, P ∈ loadedProjs s.g)
    (hwU : ∀ x ∈ s.work, x ∈ U)
    (hwR : ∀ x ∈ s.work, ReachT1 env arch start x) :
    (processBdeps env arch bs s).2 = none ∧
    CleanG env arch (processBdeps env arch bs s).1.g ∧
    (∀ P ∈ (processBdeps env arch bs s).1.projDeps,
      P ∈ loadedProjs (processBdeps env arch bs s).1.g) ∧
    (∀ x ∈ s.work, x ∈ (processBdeps env arch bs s).1.work) ∧
    (∀ x ∈ (processBdeps env arch bs s).1.work, x ∈ U) ∧
    (∀ x ∈ (processBdeps env arch bs s).1.work, ReachT1 env arch start x) ∧
    (∀ b ∈ bs, ∀ v, t1look env arch b.project b.name = some v →
      (b.project, b.repository, v) ∈ s.expanded ∨
      (b.project, b.repository, v) ∈ (processBdeps env arch bs s).1.work) := by
  induction bs generalizing s with
  | nil =>
    refine ⟨rfl, hc, hsub, ?_, hwU, hwR, ?_⟩
    · intro x hx
      exact hx
    · intro b hb
      cases hb
  | cons b bs ih =>
    obtain ⟨hnoerr, hc1, hsub1, hexp1, hmono1, hwU1, hwR1, hcov1⟩ :=
      stepBdep_inv_t1 env arch start U B huni hT1 t htU hreacht s b
        (hbs b (List.mem_cons_self _ _)) hc hsub hwU hwR
    cases hsb : stepBdep env arch s b with
    | mk s1 e =>
      rw [hsb] at hnoerr hc1 hsub1 hexp1 hmono1 hwU1 hwR1 hcov1
      have he : e = none := hnoerr
      subst he
      obtain ⟨hne, hc2, hsub2, hmono2, hwU2, hwR2, hcov2⟩ :=
        ih s1 (fun b' hb' => hbs b' (List.mem_cons_of_mem _ hb')) hc1 hsub1 hwU1 hwR1
      have hpb : processBdeps env arch (b :: bs) s = processBdeps env arch bs s1 := by
        simp only [processBdeps, hsb]
      rw [hpb]
      refine ⟨hne, hc2, hsub2, ?_, hwU2, hwR2, ?_⟩
      · intro x hx
        exact hmono2 x (hmono1 x hx)
      · intro b' hb' v hv
        rcases List.mem_cons.mp hb' with rfl | hb''
        · rcases hcov1 v hv with h | h
          · exact Or.inl h
          · exact Or.inr (hmono2 _ h)
        · rcases hcov2 b' hb'' v hv with h | h
          · rw [hexp1] at h
            exact Or.inl h
          · exact Or.inr h

/-- The run characterization under a tier-1 environment: started on any
clean global state — empty or warm from a previous clean run — and any
pop order, the worklist loop terminates normally, leaves the global
state clean, and its visited set is exactly the set of targets reachable
from the start through tier-1 resolutions. -/
theorem expandLoop_t1_char (env : Env) (arch : String) (pick : PickFn)
    (start : PkgTarget) (U : List PkgTarget) (B fuel : Nat) (g : Global)
    (huni : RepoUniform env arch) (hT1 : T1Closed env arch U B)
    (hstart : start ∈ U) (hcg : CleanG env arch g)
    (hfuel : loopMeasure U B ⟨[], [start], [], g⟩ < fuel) :
    ∃ s, expandLoop env arch pick fuel ⟨[], [start], [], g⟩ = .ok s ∧
      CleanG env arch s.g ∧
      ∀ u, u ∈ s.expanded ↔ ReachT1 env arch start u := by
  have htotal := expandLoop_total env arch pick U B (InvT1 env arch start U)
    hT1.2.2
    (fun s hs => ⟨hs.2.2.1, hs.1, hs.2.1⟩)
    (by
      intro s i t hs ht hsplit
      obtain ⟨h1, h2, h3, h4, h5, h6, h7, h8, h9⟩ := hs
      refine ⟨h1, h2, ?_, h4, ?_, ?_, h7, h8, ?_⟩
      · intro x hx
        exact h3 x (List.mem_of_mem_eraseIdx hx)
      · intro x hx
        exact h5 x (List.mem_of_mem_eraseIdx hx)
      · rcases h6 with h6 | h6
        · exact Or.inl h6
        · rcases hsplit start h6 with rfl | h6'
          · exact Or.inl ht
          · exact Or.inr h6'
      · intro x hx b hb v hv
        rcases h9 x hx b hb v hv with h | h
        · exact Or.inl h
        · rcases hsplit _ h with rfl | h'
          · exact Or.inl ht
          · exact Or.inr h')
    (by
      intro s i t hs htw hte hsplit
      obtain ⟨h1, h2, h3, h4, h5, h6, h7, h8, h9⟩ := hs
      have htU : t ∈ U := h3 t htw
      have hreacht : ReachT1 env arch start t := h5 t htw
      obtain ⟨hne, hc2, hsub2, hmono2, hwU2, hwR2, hcov2⟩ :=
        processBdeps_inv_t1 env arch start U B huni hT1 t htU hreacht
          (env.buildenv t.1 t.2.1 arch t.2.2) (popExpand s i t)
          (fun b hb => hb) h7 h8
          (fun x hx => h3 x (List.mem_of_mem_eraseIdx hx))
          (fun x hx => h5 x (List.mem_of_mem_eraseIdx hx))
      have hpe := processBdeps_expanded env arch
        (env.buildenv t.1 t.2.1 arch t.2.2) (popExpand s i t)
      refine ⟨hne, ?_, ?_, ?_, ?_, ?_, ?_, hc2, hsub2, ?_⟩
      · rw [hpe]
        exact List.nodup_cons.mpr ⟨hte, h1⟩
      · rw [hpe]
        intro x hx
        rcases List.mem_cons.mp hx with rfl | hx'
        · exact htU
        · exact h2 x hx'
      · exact hwU2
      · rw [hpe]
        intro x hx
        rcases List.mem_cons.mp hx with rfl | hx'
        · exact hreacht
        · exact h4 x hx'
      · exact hwR2
      · rcases h6 with h6 | h6
        · left
          rw [hpe]
          exact List.mem_cons_of_mem _ h6
        · rcases hsplit start h6 with rfl | h6'
          · left
            rw [hpe]
            exact List.mem_cons_self _ _
          · exact Or.inr (hmono2 start h6')
      · intro x hx b hb v hv
        rw [hpe] at hx
        rcases List.mem_cons.mp hx with rfl | hx'
        · rcases hcov2 b hb v hv with h | h
          · left
            rw [hpe]
            exact h
          · exact Or.inr h
        · rcases h9 x hx' b hb v hv with h | h
          · left
            rw [hpe]
            exact List.mem_cons_of_mem _ h
          · rcases hsplit _ h with rfl | h'
            · left
              rw [hpe]
              exact List.mem_cons_self _ _
            · exact Or.inr (hmono2 _ h'))
  have hinit : InvT1 env arch start U ⟨[], [start], [], g⟩ := by
    refine ⟨List.nodup_nil, ?_, ?_, ?_, ?_,
      Or.inr (List.mem_singleton.mpr rfl), hcg, ?_, ?_⟩
    · intro u hu
      cases hu
    · intro u hu
      rcases List.mem_singleton.mp hu with rfl
      exact hstart
    · intro u hu
      cases hu
    · intro u hu
      rcases List.mem_singleton.mp hu with rfl
      exact ReachT1.base
    · intro P hP
      cases hP
    · intro u hu
      cases hu
  obtain ⟨s, hrun, hInv, hwe⟩ := htotal fuel _ hinit hfuel
  obtain ⟨h1, h2, h3, h4, h5, h6, h7, h8, h9⟩ := hInv
  refine ⟨s, hrun, h7, ?_⟩
  intro u
  constructor
  · exact h4 u
  · intro hr
    induction hr with
    | base =>
      rcases h6 with h | h
      · exact h
      · rw [hwe] at h
        cases h
    | step hr hb hv ih =>
      rcases h9 _ ih _ hb _ hv with h | h
      · exact h
      · rw [hwe] at h
        cases h

/-- The empty global state — the state of a cold process — is clean. -/
theorem cleanG_empty (env : Env) (arch : String) : CleanG env arch Global.empty := by
  intro p n
  have hnz : p ∉ loadedProjs Global.empty := by
    intro h
    cases h
  rw [if_neg hnz]
  rfl

/-- C2 (amended): the claim fails as stated — see the counterexample,
where the second run's visited set differs because an edge resolves
against the warm BIN2PKG cache — but it holds whenever every edge
resolves in the cheap tier: over a repository-uniform environment in
which every bdep of the closed universe has a tier-1 resolution, running
expand_proj_deps twice from the same start, first on a cold cache and
then on the cache the first run left behind, terminates normally both
times and yields the same visited set for every pair of pop orders. -/
theorem c2_runs_agree_under_tier1 (env : Env) (arch : String)
    (pick1 pick2 : PickFn) (P R K : String) (U : List PkgTarget)
    (B fuel1 fuel2 : Nat)
    (huni : RepoUniform env arch) (hT1 : T1Closed env arch U B)
    (hstart : (P, R, K) ∈ U)
    (hfuel1 : loopMeasure U B ⟨[], [(P, R, K)], [], Global.empty⟩ < fuel1)
    (hfuel2 : loopMeasure U B ⟨[], [(P, R, K)], [], Global.empty⟩ < fuel2) :
    ∃ s1 s2,
      expandRun env arch pick1 fuel1 Global.empty P R K = .ok s1 ∧
      expandRun env arch pick2 fuel2 s1.g P R K = .ok s2 ∧
      ∀ u, u ∈ s1.expanded ↔ u ∈ s2.expanded := by
  obtain ⟨s1, hrun1, hcg1, hchar1⟩ := expandLoop_t1_char env arch pick1 (P, R, K)
    U B fuel1 Global.empty huni hT1 hstart (cleanG_empty env arch) hfuel1
  obtain ⟨s2, hrun2, hcg2, hchar2⟩ := expandLoop_t1_char env arch pick2 (P, R, K)
    U B fuel2 s1.g huni hT1 hstart hcg1 hfuel2
  refine ⟨s1, s2, hrun1, hrun2, ?_⟩
  intro u
  rw [hchar1 u, hchar2 u]

/-- C2 witness: over the concrete tier-1 environment envT1, a cold run
and a second run warmed by the first agree on the visited set. -/
theorem c2_runs_agree_under_tier1_witness :
    ∃ s1 s2,
      expandRun envT1 "a" pick0 20 Global.empty "p" "r" "s" = .ok s1 ∧
      expandRun envT1 "a" pick0 20 s1.g "p" "r" "s" = .ok s2 ∧
      ∀ u, u ∈ s1.expanded ↔ u ∈ s2.expanded := by
  apply c2_runs_agree_under_tier1 envT1 "a" pick0 pick0 "p" "r" "s"
    [("p", "r", "s"), ("p", "r", "xsrc")] 1 20 20
  · intro p r r'
    rfl
  · refine ⟨?_, ?_, ?_⟩
    · intro t ht b hb
      rcases List.mem_cons.mp ht with rfl | ht'
      · rw [show envT1.buildenv "p" "r" "a" "s" = [⟨"p", "r", "xbin"⟩] from by decide] at hb
        rcases List.mem_singleton.mp hb with rfl
        exact ⟨"xsrc", by decide⟩
      · rcases List.mem_cons.mp ht' with rfl | ht''
        · rw [show envT1.buildenv "p" "r" "a" "xsrc" = [] from by decide] at hb
          cases hb
        · cases ht''
    · intro t ht b hb v hv
      rcases List.mem_cons.mp ht with rfl | ht'
      · rw [show envT1.buildenv "p" "r" "a" "s" = [⟨"p", "r", "xbin"⟩] from by decide] at hb
        rcases List.mem_singleton.mp hb with rfl
        rw [show t1look envT1 "a" "p" "xbin" = some "xsrc" from by decide] at hv
        injection hv with h
        subst h
        decide
      · rcases List.mem_cons.mp ht' with rfl | ht''
        · rw [show envT1.buildenv "p" "r" "a" "xsrc" = [] from by decide] at hb
          cases hb
        · cases ht''
    · intro t ht
      rcases List.mem_cons.mp ht with rfl | ht'
      · decide
      · rcases List.mem_cons.mp ht' with rfl | ht''
        · decide
        · cases ht''
  · decide
  · decide
  · decide
